import Mathlib

/-!
# epoll_server.c : per-connection framing of `handle_client_data`

A shallow embedding of `handle_client_data` (src/epoll_server.c, lines 118-179) and of the
client branch of the event loop of `main` (lines 240-247).

* Bytes are natural numbers (`0` is NUL, `13` is CR, `10` is LF).
* A slot of `client_buffers` is a list of bytes (2048 of them in every reachable state), and
  every access to it is bounds-checked: an access outside the slot makes the embedding
  return `none`.
* `read` and `write` are the environment: the results of the successive `read` calls are a
  script, the results of the successive `write` calls an oracle.
-/

namespace EpollServer

/-! ## Constants -/

/-- The macro `BUFFER_SIZE` (line 15). -/
def BUFFER_SIZE : Nat := 1024

/-- The number of slots of `client_buffers` and of `buffer_lens` (lines 121-122, 127). -/
def NUM_SLOTS : Nat := 1024

/-- The size of one slot, `sizeof(client_buffers[client_idx])`, that is `BUFFER_SIZE * 2`. -/
def SLOT_SIZE : Nat := BUFFER_SIZE * 2

/-- The most bytes one `read` returns: `sizeof(buffer) - 1` (line 130). -/
def READ_MAX : Nat := BUFFER_SIZE - 1

/-- The string `response`, "ok\r\n" (line 125). -/
def response : List Nat := [111, 107, 13, 10]

/-- The delimiter "\r\n" searched by `strstr` (line 153). -/
def CRLF : List Nat := [13, 10]

/-! ## The C library functions the handler uses, over a bounds-checked slot -/

/-- Length of the NUL-terminated string that starts a list of bytes; `none` when the list
holds no NUL (the scan would leave the object). -/
def strlenAux : List Nat → Option Nat
  | [] => none
  | x :: xs => if x = 0 then some 0 else (strlenAux xs).map (· + 1)

/-- The call `strlen(mem + s)`. -/
def strlen (mem : List Nat) (s : Nat) : Option Nat :=
  strlenAux (mem.drop s)

/-- Index of the first occurrence of CR LF in a list of bytes. -/
def findCRLF : List Nat → Option Nat
  | [] => none
  | [_] => none
  | x :: y :: rest =>
    if x = 13 ∧ y = 10 then some 0 else (findCRLF (y :: rest)).map (· + 1)

/-- The call `strstr(mem + s, "\r\n")`: `none` when `mem + s` is not a NUL-terminated string
inside the slot, `some none` for the result `NULL`, `some (some e)` for a match at index
`e` of the slot. -/
def strstr (mem : List Nat) (s : Nat) : Option (Option Nat) :=
  (strlen mem s).map fun n => (findCRLF ((mem.drop s).take n)).map (· + s)

/-- The store `mem[i] = v`. -/
def store (mem : List Nat) (i v : Nat) : Option (List Nat) :=
  if i < mem.length then some (mem.set i v) else none

/-- The call `memcpy(mem + off, src, src.length)`. -/
def memcpy (mem : List Nat) (off : Nat) (src : List Nat) : Option (List Nat) :=
  if off + src.length ≤ mem.length then
    some (mem.take off ++ src ++ mem.drop (off + src.length))
  else none

/-- The call `memmove(mem, mem + src, n)`. -/
def memmove (mem : List Nat) (src n : Nat) : Option (List Nat) :=
  if src + n ≤ mem.length then
    some ((mem.drop src).take n ++ mem.drop n)
  else none

/-- The C string at `mem + s`: the bytes before the first NUL. -/
def cstring (mem : List Nat) (s : Nat) : List Nat :=
  (mem.drop s).takeWhile (fun b => b != 0)

/-! ## The environment -/

/-- Result of one `read(client_fd, buffer, sizeof(buffer) - 1)` (line 130). -/
inductive ReadResult where
  /-- `bytes_read = data.length` bytes were read (`0` of them at end of stream). -/
  | bytes (data : List Nat)
  /-- The result `-1` with `errno` equal to `EAGAIN` or `EWOULDBLOCK`. -/
  | eagain
  /-- The result `-1` with another `errno`. -/
  | error
  deriving DecidableEq, Repr

/-- Result of one `write(client_fd, response, strlen(response))` (line 159). -/
inductive WriteResult where
  /-- The result `-1`. -/
  | fail
  /-- The socket accepted the first `n` bytes of the payload. -/
  | wrote (n : Nat)
  deriving DecidableEq, Repr

/-- The oracle of a socket on which every `write` takes the whole payload. -/
def all_written : Nat → WriteResult := fun _ => WriteResult.wrote 4

/-! ## The state -/

/-- The two static arrays of `handle_client_data` (lines 121-122). -/
structure State where
  client_buffers : Nat → List Nat
  buffer_lens : Nat → Nat

/-- The zero-initialised static arrays. -/
def State.init : State where
  client_buffers := fun _ => List.replicate SLOT_SIZE 0
  buffer_lens := fun _ => 0

/-- The bytes a slot holds: the first `buffer_lens` bytes of the slot. -/
def State.content (st : State) (idx : Nat) : List Nat :=
  (st.client_buffers idx).take (st.buffer_lens idx)

/-- The slot `idx` replaced by `mem` and `len`. -/
def State.put (st : State) (idx : Nat) (mem : List Nat) (len : Nat) : State where
  client_buffers := Function.update st.client_buffers idx mem
  buffer_lens := Function.update st.buffer_lens idx len

/-! ## The extraction loop (lines 152-166) -/

/-- What one run of the `while ((msg_end = strstr(...)) != NULL)` loop leaves. -/
structure Pass where
  /-- The slot after the loop. -/
  mem : List Nat
  /-- The final value of `msg_start`, an index of the slot. -/
  msg_start : Nat
  /-- The messages found (the strings at `msg_start` after `*msg_end = 0`), in order. -/
  msgs : List (List Nat)
  /-- The bytes the socket accepted. -/
  sent : List Nat
  /-- The number of `write` calls. -/
  writes : Nat
  /-- Whether a `write` returned `-1` (the handler then returns `-1`, line 161). -/
  failed : Bool
  deriving DecidableEq, Repr

/-- The loop of lines 153-166 from `msg_start`; `w k` is the result of the `k`-th `write` from
here on. The first argument bounds the number of iterations. -/
def scan_messages : Nat → List Nat → Nat → (Nat → WriteResult) → Option Pass
  | 0, _, _, _ => none
  | fuel + 1, mem, msg_start, w =>
    match strstr mem msg_start with
    | none => none
    | some none => some ⟨mem, msg_start, [], [], 0, false⟩
    | some (some msg_end) =>
      match store mem msg_end 0 with
      | none => none
      | some mem1 =>
        match w 0 with
        | WriteResult.fail =>
          some ⟨mem1, msg_start, [cstring mem1 msg_start], [], 1, true⟩
        | WriteResult.wrote n =>
          match scan_messages fuel mem1 (msg_end + 2) (fun k => w (k + 1)) with
          | none => none
          | some p =>
            some ⟨p.mem, p.msg_start, cstring mem1 msg_start :: p.msgs,
              response.take n ++ p.sent, p.writes + 1, p.failed⟩

/-! ## One iteration of the read loop with `bytes_read > 0` (lines 143-175) -/

/-- The append of lines 145-149: the slot and its length afterwards. -/
def append_chunk (mem : List Nat) (len : Nat) (data : List Nat) : Option (List Nat × Nat) :=
  if len + data.length < SLOT_SIZE then
    match memcpy mem len data with
    | none => none
    | some mem1 =>
      match store mem1 (len + data.length) 0 with
      | none => none
      | some mem2 => some (mem2, len + data.length)
  else some (mem, len)

/-- What the branch `bytes_read > 0` leaves. -/
structure Step where
  mem : List Nat
  len : Nat
  msgs : List (List Nat)
  sent : List Nat
  writes : Nat
  failed : Bool
  deriving DecidableEq, Repr

/-- The compaction of lines 169-174 after a loop that ended with `msg_start`. -/
def compact (mem : List Nat) (msg_start : Nat) : Option (List Nat × Nat) :=
  match strlen mem msg_start with
  | none => none
  | some remaining =>
    match (if remaining > 0 then memmove mem msg_start remaining else some mem) with
    | none => none
    | some mem1 =>
      match store mem1 remaining 0 with
      | none => none
      | some mem2 => some (mem2, remaining)

/-- Lines 151-174 on one slot whose length is `len`: extraction loop, then compaction. When a
`write` fails the handler returns at line 161, before the compaction. -/
def extract_pass (mem : List Nat) (len : Nat) (w : Nat → WriteResult) : Option Step :=
  match scan_messages SLOT_SIZE mem 0 w with
  | none => none
  | some p =>
    if p.failed then some ⟨p.mem, len, p.msgs, p.sent, p.writes, true⟩
    else
      match compact p.mem p.msg_start with
      | none => none
      | some (mem2, remaining) => some ⟨mem2, remaining, p.msgs, p.sent, p.writes, false⟩

/-- Lines 143-175 on one slot: append, extraction loop, compaction. -/
def on_data (mem : List Nat) (len : Nat) (data : List Nat) (w : Nat → WriteResult) :
    Option Step :=
  match append_chunk mem len data with
  | none => none
  | some (mem1, len1) => extract_pass mem1 len1 w

/-! ## The handler (lines 120-179) -/

/-- What a call of `handle_client_data` leaves. -/
structure Result where
  /-- The value returned: `0` or `-1`. -/
  ret : Int
  /-- The static arrays afterwards. -/
  st : State
  /-- The messages found during the call, in order. -/
  msgs : List (List Nat)
  /-- The bytes the socket accepted during the call. -/
  sent : List Nat

/-- The function `handle_client_data(client_fd)`: `reads` are the results of the successive
`read` calls (a script that runs out reads as would-block) and `w k` is the result of the
`k`-th `write`. -/
def handle_client_data (st : State) (client_fd : Nat) :
    List ReadResult → (Nat → WriteResult) → Option Result
  | [], _ => some ⟨0, st, [], []⟩
  | ReadResult.eagain :: _, _ => some ⟨0, st, [], []⟩
  | ReadResult.error :: _, _ => some ⟨-1, st, [], []⟩
  | ReadResult.bytes data :: rest, w =>
    let client_idx := client_fd % NUM_SLOTS
    if data.length = 0 then
      some ⟨-1, ⟨st.client_buffers, Function.update st.buffer_lens client_idx 0⟩, [], []⟩
    else
      match on_data (st.client_buffers client_idx) (st.buffer_lens client_idx) data w with
      | none => none
      | some s =>
        if s.failed then
          some ⟨-1, st.put client_idx s.mem s.len, s.msgs, s.sent⟩
        else
          match handle_client_data (st.put client_idx s.mem s.len) client_fd rest
              (fun k => w (k + s.writes)) with
          | none => none
          | some r => some ⟨r.ret, r.st, s.msgs ++ r.msgs, s.sent ++ r.sent⟩

/-! ## The client branch of the event loop (lines 240-247) -/

/-- The static arrays and the client descriptors that are open and registered. -/
structure Server where
  st : State
  open_fds : List Nat

/-- One client event of the loop of `main`: the handler runs, and on `-1` the descriptor is
removed from the epoll set and closed. -/
def client_event (sv : Server) (fd : Nat) (reads : List ReadResult) (w : Nat → WriteResult) :
    Option (Server × Result) :=
  match handle_client_data sv.st fd reads w with
  | none => none
  | some r =>
    if r.ret = -1 then some (⟨r.st, sv.open_fds.erase fd⟩, r)
    else some (⟨r.st, sv.open_fds⟩, r)

/-- A new connection is accepted on descriptor `fd` (line 239): the arrays are not touched. -/
def accept_event (sv : Server) (fd : Nat) : Server :=
  ⟨sv.st, fd :: sv.open_fds⟩

/-- A slot that holds 2047 bytes "A" and the terminator: a full buffer. -/
def full_slot : List Nat := List.replicate 2047 65 ++ [0]

/-- A slot that holds the four bytes "A\r\nB" and the terminator. -/
def sample_slot : List Nat := [65, 13, 10, 66] ++ 0 :: List.replicate 2043 0

/-- The static arrays with slot 5 full. -/
def full_state : State := State.init.put 5 full_slot 2047

/-- A client event: the descriptor, the results of its `read` calls and of its `write` calls. -/
abbrev ClientEvent := Nat × List ReadResult × (Nat → WriteResult)

/-- The client events of the loop of lines 236-248, one after the other. -/
def serve : Server → List ClientEvent → Option Server
  | sv, [] => some sv
  | sv, e :: es =>
    match client_event sv e.1 e.2.1 e.2.2 with
    | none => none
    | some (sv1, _) => serve sv1 es

/-- The bytes of `n` replies. -/
def replies : Nat → List Nat
  | 0 => []
  | n + 1 => response ++ replies n

/-- A slot that holds a NUL-terminated string of `len` bytes at most `SLOT_SIZE - 1` long:
the bounds `0 <= buffer_len <= 2047` and the terminator at index `buffer_len`. -/
def Terminated (mem : List Nat) (len : Nat) : Prop :=
  mem.length = SLOT_SIZE ∧ len < SLOT_SIZE ∧ mem[len]? = some 0

/-- What every reachable slot satisfies, also after the reset of line 141 (which sets the length
to `0` and leaves the bytes). -/
def SlotOK (mem : List Nat) (len : Nat) : Prop :=
  mem.length = SLOT_SIZE ∧ len < SLOT_SIZE ∧ (len = 0 ∨ mem[len]? = some 0)

instance Terminated.decide (mem : List Nat) (len : Nat) : Decidable (Terminated mem len) := by
  unfold Terminated; infer_instance

instance SlotOK.decide (mem : List Nat) (len : Nat) : Decidable (SlotOK mem len) := by
  unfold SlotOK; infer_instance

/-- A `read` result the call of line 130 can produce: at most `READ_MAX` bytes. -/
def ValidRead : ReadResult → Prop
  | ReadResult.bytes data => data.length ≤ READ_MAX
  | _ => True

/-- A `read` result that is a chunk of 1 to `READ_MAX` bytes, a would-block or an error (not
the end of the stream). -/
def ChunkRead : ReadResult → Prop
  | ReadResult.bytes data => 0 < data.length ∧ data.length ≤ READ_MAX
  | _ => True

instance ValidRead.decide (rd : ReadResult) : Decidable (ValidRead rd) := by
  cases rd <;> unfold ValidRead <;> infer_instance

instance ChunkRead.decide (rd : ReadResult) : Decidable (ChunkRead rd) := by
  cases rd <;> unfold ChunkRead <;> infer_instance

/-- Every zero byte of `a` is a zero byte of `b`. -/
def ZeroKept (a b : List Nat) : Prop :=
  ∀ i : Nat, a[i]? = some 0 → b[i]? = some 0

/-! ## The framing the specification describes -/

/-- The byte stream of a sequence of messages, each followed by CR LF. -/
def delimited : List (List Nat) → List Nat
  | [] => []
  | m :: ms => m ++ 13 :: 10 :: delimited ms

/-- Prepends a byte to the first message of a framing (to the tail when there is none). -/
def frame_push (x : Nat) (p : List (List Nat) × List Nat) : List (List Nat) × List Nat :=
  match p.1 with
  | [] => ([], x :: p.2)
  | m :: ms => ((x :: m) :: ms, p.2)

/-- Specification of the framing: the complete messages of a byte stream (the spans between
consecutive CR LF delimiters, left to right), and the bytes after the last delimiter. -/
def frame : List Nat → List (List Nat) × List Nat
  | [] => ([], [])
  | [x] => ([], [x])
  | x :: y :: rest =>
    if x = 13 ∧ y = 10 then ([] :: (frame rest).1, (frame rest).2)
    else frame_push x (frame (y :: rest))

/-- The complete messages of a byte stream. -/
def messages_of (l : List Nat) : List (List Nat) := (frame l).1

/-- The bytes after the last CR LF of a byte stream (all of it when it has none). -/
def tail_of (l : List Nat) : List Nat := (frame l).2

/-- No chunk of the sequence meets the guard of line 145: each one fits behind the bytes that
are retained (`r` at first) when it arrives. -/
def Fits : List Nat → List (List Nat) → Prop
  | _, [] => True
  | r, c :: cs => r.length + c.length < SLOT_SIZE ∧ Fits (tail_of (r ++ c)) cs

instance Fits.decide : (r : List Nat) → (cs : List (List Nat)) → Decidable (Fits r cs)
  | _, [] => isTrue trivial
  | r, c :: cs =>
    have := Fits.decide (tail_of (r ++ c)) cs
    inferInstanceAs (Decidable (_ ∧ _))

/-! ## Facts about the library functions -/

theorem strlenAux_append (s rest : List Nat) (hs : 0 ∉ s) :
    strlenAux (s ++ 0 :: rest) = some s.length := by
  induction s with
  | nil => simp [strlenAux]
  | cons x xs ih =>
    have hx : x ≠ 0 := fun h => hs (by simp [h])
    have hxs : 0 ∉ xs := fun h => hs (by simp [h])
    simp [strlenAux, hx, ih hxs]

theorem split_at_nul (l : List Nat) (h : 0 ∈ l) :
    ∃ s rest, l = s ++ 0 :: rest ∧ 0 ∉ s := by
  induction l with
  | nil => simp at h
  | cons x xs ih =>
    by_cases hx : x = 0
    · exact ⟨[], xs, by simp [hx], by simp⟩
    · have hmem : 0 ∈ xs := by
        rcases List.mem_cons.mp h with h0 | h0
        · exact absurd h0.symm hx
        · exact h0
      obtain ⟨s, rest, hl, hs⟩ := ih hmem
      refine ⟨x :: s, rest, by simp [hl], ?_⟩
      intro hm
      rcases List.mem_cons.mp hm with h0 | h0
      · exact hx h0.symm
      · exact hs h0

theorem takeWhile_nul (s rest : List Nat) (hs : 0 ∉ s) :
    (s ++ 0 :: rest).takeWhile (fun b => b != 0) = s := by
  induction s with
  | nil => simp
  | cons x xs ih =>
    have hx : x ≠ 0 := fun h => hs (by simp [h])
    have hxs : 0 ∉ xs := fun h => hs (by simp [h])
    have ih1 := ih hxs
    simp only [List.cons_append, List.takeWhile_cons]
    simp [hx, ih1]

theorem findCRLF_cons_none {x : Nat} {l : List Nat} (h : findCRLF (x :: l) = none) :
    findCRLF l = none := by
  cases l with
  | nil => rfl
  | cons y rest =>
    simp only [findCRLF] at h
    split at h
    · simp at h
    · simpa using h

theorem findCRLF_head_none {x y : Nat} {l : List Nat} (h : findCRLF (x :: y :: l) = none) :
    ¬ (x = 13 ∧ y = 10) := by
  intro hxy
  simp [findCRLF, hxy] at h

theorem findCRLF_cons_of_none {x : Nat} {l : List Nat} (h : findCRLF l = none)
    (hx : ¬ (x = 13 ∧ l.head? = some 10)) : findCRLF (x :: l) = none := by
  cases l with
  | nil => rfl
  | cons y rest =>
    have : ¬ (x = 13 ∧ y = 10) := by simpa using hx
    simp [findCRLF, this, h]

/-- The first CR LF of `m ++ CR LF ++ rest` is the one after `m` when `m` has none. -/
theorem findCRLF_append (m rest : List Nat) (hm : findCRLF m = none) :
    findCRLF (m ++ 13 :: 10 :: rest) = some m.length := by
  induction m with
  | nil => simp [findCRLF]
  | cons x xs ih =>
    have ih1 := ih (findCRLF_cons_none hm)
    cases xs with
    | nil => simp [findCRLF]
    | cons y ys =>
      have hxy := findCRLF_head_none hm
      simp only [List.cons_append, findCRLF, hxy, if_false]
      simp only [List.cons_append] at ih1
      simp [ih1]

/-! ## Facts about the specification of the framing -/

theorem frame_of_none (t : List Nat) (ht : findCRLF t = none) : frame t = ([], t) := by
  induction t with
  | nil => rfl
  | cons x xs ih =>
    have ih1 := ih (findCRLF_cons_none ht)
    cases xs with
    | nil => rfl
    | cons y ys =>
      have hxy := findCRLF_head_none ht
      simp [frame, hxy, ih1, frame_push]

theorem frame_message (m z : List Nat) (hm : findCRLF m = none) :
    frame (m ++ 13 :: 10 :: z) = (m :: (frame z).1, (frame z).2) := by
  induction m with
  | nil => simp [frame]
  | cons x xs ih =>
    have ih1 := ih (findCRLF_cons_none hm)
    cases xs with
    | nil =>
      simp only [List.nil_append] at ih1
      simp [frame, ih1, frame_push]
    | cons y ys =>
      have hxy := findCRLF_head_none hm
      simp only [List.cons_append] at ih1
      simp [frame, hxy, ih1, frame_push]

/-- The framing of a stream that starts with delimited messages: those messages, then the
framing of what follows. -/
theorem frame_delimited (ms : List (List Nat)) (z : List Nat)
    (hms : ∀ m ∈ ms, findCRLF m = none) :
    frame (delimited ms ++ z) = (ms ++ (frame z).1, (frame z).2) := by
  induction ms with
  | nil => simp [delimited]
  | cons m ms ih =>
    have h1 := ih (fun a ha => hms a (List.mem_cons_of_mem _ ha))
    have h2 := frame_message m (delimited ms ++ z) (hms m (List.mem_cons_self _ _))
    simp only [delimited, List.append_assoc, List.cons_append] at h2 ⊢
    rw [h2, h1]

/-- Every stream is the delimited messages of its framing followed by its tail, and neither a
message nor the tail holds a delimiter. -/
theorem frame_decomp (l : List Nat) :
    l = delimited (frame l).1 ++ (frame l).2 ∧
      (∀ m ∈ (frame l).1, findCRLF m = none) ∧ findCRLF (frame l).2 = none := by
  induction l using frame.induct with
  | case1 => simp [frame, delimited, findCRLF]
  | case2 x => simp [frame, delimited, findCRLF]
  | case3 x y rest hxy ih =>
    obtain ⟨h1, h2, h3⟩ := ih
    simp only [frame, hxy, and_self, if_true]
    refine ⟨?_, ?_, h3⟩
    · simp only [delimited, List.nil_append, List.cons_append]
      rw [← h1]
    · intro m hm
      rcases List.mem_cons.mp hm with h0 | h0
      · subst h0; rfl
      · exact h2 m h0
  | case4 x y rest hxy ih =>
    obtain ⟨h1, h2, h3⟩ := ih
    simp only [frame, hxy, if_false]
    cases hf : (frame (y :: rest)).1 with
    | nil =>
      rw [hf] at h1 h2
      simp only [delimited, List.nil_append] at h1
      simp only [frame_push, hf, delimited, List.nil_append]
      refine ⟨by rw [← h1], by simp, ?_⟩
      apply findCRLF_cons_of_none h3
      rw [← h1]
      simpa using hxy
    | cons m ms =>
      rw [hf] at h1 h2
      simp only [frame_push, hf, delimited, List.cons_append]
      refine ⟨?_, ?_, h3⟩
      · simp only [delimited, List.append_assoc, List.cons_append] at h1 ⊢
        rw [← h1]
      · intro a ha
        rcases List.mem_cons.mp ha with h0 | h0
        · subst h0
          apply findCRLF_cons_of_none (h2 m (List.mem_cons_self _ _))
          intro hc
          apply hxy
          refine ⟨hc.1, ?_⟩
          cases m with
          | nil => simp at hc
          | cons b bs =>
            simp only [delimited, List.cons_append, List.cons.injEq] at h1
            simp only [List.head?_cons, Option.some.injEq] at hc
            rw [h1.1]; exact hc.2
        · exact h2 a (List.mem_cons_of_mem _ h0)

theorem frame_restart (x y : List Nat) :
    frame (x ++ y) = ((frame x).1 ++ (frame (tail_of x ++ y)).1, (frame (tail_of x ++ y)).2) := by
  obtain ⟨h1, h2, _⟩ := frame_decomp x
  have h := frame_delimited (frame x).1 ((frame x).2 ++ y) h2
  rw [← List.append_assoc, ← h1] at h
  exact h

theorem delimited_append (a b : List (List Nat)) :
    delimited (a ++ b) = delimited a ++ delimited b := by
  induction a with
  | nil => rfl
  | cons m ms ih => simp [delimited, ih]

theorem mem_delimited_nul (ms : List (List Nat)) (t : List Nat) (h : 0 ∉ delimited ms ++ t) :
    (∀ m ∈ ms, 0 ∉ m) ∧ 0 ∉ t := by
  induction ms with
  | nil => simpa [delimited] using h
  | cons m ms ih =>
    simp only [delimited, List.append_assoc, List.cons_append, List.mem_append,
      List.mem_cons, not_or] at h
    obtain ⟨hm, _, _, hrest⟩ := h
    have := ih (by simpa using hrest)
    refine ⟨?_, this.2⟩
    intro a ha
    rcases List.mem_cons.mp ha with h0 | h0
    · subst h0; exact hm
    · exact this.1 a h0

/-! ## Facts about the memory operations -/

theorem strlen_at (pre str rest : List Nat) (hs : 0 ∉ str) :
    strlen (pre ++ str ++ 0 :: rest) pre.length = some str.length := by
  unfold strlen
  rw [List.append_assoc, List.drop_left]
  exact strlenAux_append str rest hs

theorem strstr_at (pre str rest : List Nat) (hs : 0 ∉ str) :
    strstr (pre ++ str ++ 0 :: rest) pre.length
      = some ((findCRLF str).map (· + pre.length)) := by
  unfold strstr
  rw [strlen_at pre str rest hs]
  simp only [Option.map_some']
  rw [List.append_assoc, List.drop_left, List.take_left]

theorem store_at (pre rest : List Nat) (b v : Nat) :
    store (pre ++ b :: rest) pre.length v = some (pre ++ v :: rest) := by
  unfold store
  have h : pre.length < (pre ++ b :: rest).length := by simp
  rw [if_pos h, List.set_append_right _ _ (Nat.le_refl _)]
  simp

theorem zeroKept_refl (a : List Nat) : ZeroKept a a := fun _ h => h

theorem zeroKept_trans {a b c : List Nat} (h1 : ZeroKept a b) (h2 : ZeroKept b c) :
    ZeroKept a c := fun i h => h2 i (h1 i h)

theorem zeroKept_store (pre rest : List Nat) (b : Nat) :
    ZeroKept (pre ++ b :: rest) (pre ++ 0 :: rest) := by
  intro i h
  by_cases hi : i < pre.length
  · rw [List.getElem?_append_left hi] at h ⊢
    exact h
  · have hi1 : pre.length ≤ i := Nat.le_of_not_lt hi
    rw [List.getElem?_append_right hi1] at h ⊢
    cases hk : i - pre.length with
    | zero => simp
    | succ k =>
      rw [hk] at h
      simpa using h

theorem length_le_delimited (ms : List (List Nat)) : ms.length ≤ (delimited ms).length := by
  induction ms with
  | nil => simp
  | cons m ms ih => simp [delimited]; omega

theorem replies_length (n : Nat) : (replies n).length = 4 * n := by
  induction n with
  | zero => rfl
  | succ n ih => simp [replies, response, ih]; omega

theorem delimited_nul_free (ms : List (List Nat)) (h : ∀ m ∈ ms, 0 ∉ m) :
    0 ∉ delimited ms := by
  induction ms with
  | nil => simp [delimited]
  | cons m ms ih =>
    have h1 := ih (fun a ha => h a (List.mem_cons_of_mem _ ha))
    have h2 := h m (List.mem_cons_self _ _)
    simp [delimited, h1, h2]

/-! ## The extraction loop -/

/-- The loop of lines 153-166 on a slot that holds, from `msg_start` on, the delimited messages
`ms`, the delimiter-free bytes `t` and a NUL: it ends (every access inside the slot), and
unless a `write` fails it finds the messages `ms` and stops with `msg_start` at `t`. -/
theorem scan_messages_spec (t rest : List Nat) (ht : findCRLF t = none) (ht0 : 0 ∉ t)
    (ms : List (List Nat)) :
    ∀ (fuel : Nat) (pre : List Nat) (w : Nat → WriteResult),
      (∀ m ∈ ms, findCRLF m = none ∧ 0 ∉ m) → ms.length < fuel →
      ∃ p, scan_messages fuel (pre ++ (delimited ms ++ (t ++ 0 :: rest))) pre.length w = some p ∧
        p.mem.length = (pre ++ (delimited ms ++ (t ++ 0 :: rest))).length ∧
        ZeroKept (pre ++ (delimited ms ++ (t ++ 0 :: rest))) p.mem ∧
        (p.failed = false → p.msgs = ms ∧ p.writes = ms.length ∧
          ∃ pre1, pre1.length = p.msg_start ∧ p.mem = pre1 ++ (t ++ 0 :: rest) ∧
            (ms = [] → pre1 = pre)) ∧
        ((∀ k, w k ≠ WriteResult.fail) → p.failed = false) ∧
        ((∀ k, w k = WriteResult.wrote 4) → p.sent = replies ms.length) := by
  induction ms with
  | nil =>
    intro fuel pre w _ hfuel
    obtain ⟨f, rfl⟩ : ∃ f, fuel = f + 1 := ⟨fuel - 1, by simp at hfuel; omega⟩
    have hs := strstr_at pre t rest ht0
    simp only [ht, Option.map_none', List.append_assoc] at hs
    simp only [delimited, List.nil_append, scan_messages, hs]
    exact ⟨_, rfl, rfl, zeroKept_refl _, fun _ => ⟨rfl, rfl, pre, rfl, rfl, fun _ => rfl⟩,
      fun _ => rfl, fun _ => rfl⟩
  | cons m ms ih =>
    intro fuel pre w hms hfuel
    obtain ⟨f, rfl⟩ : ∃ f, fuel = f + 1 := ⟨fuel - 1, by simp at hfuel; omega⟩
    have hm := hms m (List.mem_cons_self _ _)
    have hms1 : ∀ a ∈ ms, findCRLF a = none ∧ 0 ∉ a :=
      fun a ha => hms a (List.mem_cons_of_mem _ ha)
    have hd0 : 0 ∉ delimited ms := delimited_nul_free ms (fun a ha => (hms1 a ha).2)
    have hstr0 : 0 ∉ m ++ 13 :: 10 :: (delimited ms ++ t) := by
      simp [hm.2, hd0, ht0]
    have hmem : pre ++ (delimited (m :: ms) ++ (t ++ 0 :: rest))
        = pre ++ (m ++ 13 :: 10 :: (delimited ms ++ t)) ++ 0 :: rest := by
      simp [delimited]
    have hmem2 : pre ++ (delimited (m :: ms) ++ (t ++ 0 :: rest))
        = (pre ++ m) ++ 13 :: (10 :: (delimited ms ++ (t ++ 0 :: rest))) := by
      simp [delimited]
    have hs := strstr_at pre _ rest hstr0
    rw [← hmem, findCRLF_append m _ hm.1] at hs
    simp only [Option.map_some'] at hs
    have hst := store_at (pre ++ m) (10 :: (delimited ms ++ (t ++ 0 :: rest))) 13 0
    rw [← hmem2, List.length_append, Nat.add_comm] at hst
    have hzk : ZeroKept (pre ++ (delimited (m :: ms) ++ (t ++ 0 :: rest)))
        ((pre ++ m) ++ 0 :: (10 :: (delimited ms ++ (t ++ 0 :: rest)))) := by
      rw [hmem2]; exact zeroKept_store _ _ _
    have hlen : ((pre ++ m) ++ 0 :: (10 :: (delimited ms ++ (t ++ 0 :: rest)))).length
        = (pre ++ (delimited (m :: ms) ++ (t ++ 0 :: rest))).length := by
      rw [hmem2]; simp
    have hcs : cstring ((pre ++ m) ++ 0 :: (10 :: (delimited ms ++ (t ++ 0 :: rest))))
        pre.length = m := by
      unfold cstring
      rw [List.append_assoc, List.drop_left]
      exact takeWhile_nul m _ hm.2
    have hnext : (pre ++ m) ++ 0 :: (10 :: (delimited ms ++ (t ++ 0 :: rest)))
        = (pre ++ m ++ [0, 10]) ++ (delimited ms ++ (t ++ 0 :: rest)) := by simp
    have hidx : m.length + pre.length + 2 = (pre ++ m ++ [0, 10]).length := by
      simp; omega
    simp only [scan_messages, hs, hst, hcs]
    cases hw : w 0 with
    | fail =>
      refine ⟨_, rfl, hlen, hzk, fun h => by simp at h, fun h => absurd hw (h 0), fun h => ?_⟩
      rw [h 0] at hw
      cases hw
    | wrote n =>
      obtain ⟨p, hp, hplen, hpz, hpok, hpnf, hpall⟩ :=
        ih f (pre ++ m ++ [0, 10]) (fun k => w (k + 1)) hms1 (by simp at hfuel; omega)
      simp only []
      rw [hidx, hnext, hp]
      refine ⟨_, rfl, ?_, ?_, ?_, ?_, ?_⟩
      · simp only []
        rw [hplen, ← hnext, hlen]
      · exact zeroKept_trans hzk (by rw [hnext]; exact hpz)
      · intro hf
        obtain ⟨h1, h2, pre1, h3, h4, _⟩ := hpok hf
        refine ⟨by simp [h1], by simp [h2], pre1, h3, h4, fun h => by simp at h⟩
      · exact fun hall => hpnf (fun k => hall (k + 1))
      · intro hall
        have h2 := hpall (fun k => hall (k + 1))
        have hn : n = 4 := by
          have := hall 0
          rw [hw] at this
          exact WriteResult.wrote.inj this
        subst hn
        simp [h2, replies, response]

/-! ## The compaction and the whole pass -/

theorem compact_spec (pre1 t rest : List Nat) (ht0 : 0 ∉ t) :
    ∃ mem2, compact (pre1 ++ (t ++ 0 :: rest)) pre1.length = some (mem2, t.length) ∧
      mem2.length = (pre1 ++ (t ++ 0 :: rest)).length ∧
      mem2.take t.length = t ∧ mem2[t.length]? = some 0 ∧
      (pre1 = [] → mem2 = pre1 ++ (t ++ 0 :: rest)) := by
  have hlen := strlen_at pre1 t rest ht0
  rw [List.append_assoc] at hlen
  generalize hmem : pre1 ++ (t ++ 0 :: rest) = mem at hlen ⊢
  have hml : mem.length = pre1.length + (t.length + (rest.length + 1)) := by
    rw [← hmem]; simp
  have hmove : (if t.length > 0 then memmove mem pre1.length t.length else some mem)
      = some (t ++ mem.drop t.length) := by
    by_cases h0 : t.length > 0
    · rw [if_pos h0]
      unfold memmove
      rw [if_pos (by omega)]
      congr 2
      rw [← hmem, List.drop_left, List.take_left]
    · rw [if_neg h0]
      have : t = [] := List.length_eq_zero.mp (by omega)
      subst this
      simp
  obtain ⟨d, hdrop⟩ : ∃ d, mem.drop t.length = d :: mem.drop (t.length + 1) :=
    ⟨_, List.drop_eq_getElem_cons (by omega)⟩
  have hst : store (t ++ mem.drop t.length) t.length 0
      = some (t ++ 0 :: mem.drop (t.length + 1)) := by
    rw [hdrop]; exact store_at t _ d 0
  refine ⟨t ++ 0 :: mem.drop (t.length + 1), ?_, ?_, ?_, ?_, ?_⟩
  · simp only [compact, hlen, hmove, hst]
  · simp; omega
  · exact List.take_left _ _
  · rw [List.getElem?_append_right (Nat.le_refl _)]; simp
  · intro hp
    subst hp
    rw [← hmem]
    simp only [List.nil_append]
    congr 2
    have : t.length + 1 = (t ++ [0]).length := by simp
    rw [this]
    have h2 : t ++ 0 :: rest = (t ++ [0]) ++ rest := by simp
    rw [h2, List.drop_left]

/-- Lines 151-174 on a slot that starts with the NUL-terminated string `str`: the pass ends
inside the slot; unless a `write` fails it finds the messages of `str` and retains the bytes
after the last delimiter of `str`, NUL-terminated. -/
theorem extract_pass_spec (str rest : List Nat) (len1 : Nat) (w : Nat → WriteResult)
    (hs0 : 0 ∉ str) (hsz : (str ++ 0 :: rest).length ≤ SLOT_SIZE) :
    ∃ s, extract_pass (str ++ 0 :: rest) len1 w = some s ∧
      s.mem.length = (str ++ 0 :: rest).length ∧
      (s.failed = true → s.len = len1 ∧ ZeroKept (str ++ 0 :: rest) s.mem) ∧
      (s.failed = false → s.msgs = messages_of str ∧ s.writes = (messages_of str).length ∧
        s.len = (tail_of str).length ∧ s.mem.take s.len = tail_of str ∧
        s.mem[s.len]? = some 0 ∧ (messages_of str = [] → s.mem = str ++ 0 :: rest)) ∧
      ((∀ k, w k ≠ WriteResult.fail) → s.failed = false) ∧
      ((∀ k, w k = WriteResult.wrote 4) → s.sent = replies (messages_of str).length) := by
  obtain ⟨hd, hcr, htl⟩ := frame_decomp str
  have hnul := mem_delimited_nul (frame str).1 (frame str).2 (by rw [← hd]; exact hs0)
  have hmem : str ++ 0 :: rest
      = [] ++ (delimited (frame str).1 ++ ((frame str).2 ++ 0 :: rest)) := by
    conv => lhs; rw [hd]
    simp
  have hfuel : (frame str).1.length < SLOT_SIZE := by
    have h1 := length_le_delimited (frame str).1
    have h2 : str.length = (delimited (frame str).1).length + (frame str).2.length := by
      conv => lhs; rw [hd]
      simp
    simp at hsz
    omega
  obtain ⟨p, hp, hplen, hpz, hpok, hpnf, hpall⟩ :=
    scan_messages_spec (frame str).2 rest htl hnul.2 (frame str).1 SLOT_SIZE [] w
      (fun m hm => ⟨hcr m hm, hnul.1 m hm⟩) hfuel
  rw [← hmem] at hp hplen hpz
  simp only [List.length_nil] at hp
  unfold extract_pass
  rw [hp]
  cases hf : p.failed with
  | true =>
    simp only [hf, ↓reduceIte]
    refine ⟨_, rfl, hplen, fun _ => ⟨rfl, hpz⟩, fun h => by simp at h, fun hall => ?_,
      fun hall => hpall hall⟩
    have := hpnf hall
    rw [hf] at this
    cases this
  | false =>
    obtain ⟨h1, h2, pre1, h3, h4, h5⟩ := hpok hf
    obtain ⟨mem2, hc, hclen, hctake, hcget, hcsame⟩ := compact_spec pre1 (frame str).2 rest hnul.2
    rw [← h4, h3] at hc
    rw [← h4] at hclen hcsame
    simp only [hf, Bool.false_eq_true, ↓reduceIte, hc]
    refine ⟨_, rfl, by rw [hclen, hplen], fun h => by simp at h, fun _ => ?_, fun _ => rfl,
      fun hall => hpall hall⟩
    refine ⟨h1, h2, rfl, hctake, hcget, fun hm => ?_⟩
    have hp1 : pre1 = [] := h5 hm
    have := hcsame hp1
    simp only [this, h4, hp1, List.nil_append]
    have hm1 : (frame str).1 = [] := hm
    rw [hmem, hm1]
    simp [delimited]

/-- A pass over a slot that holds a delimiter-free string changes nothing and writes nothing. -/
theorem extract_pass_idle (t rest : List Nat) (len1 : Nat) (w : Nat → WriteResult)
    (ht0 : 0 ∉ t) (ht : findCRLF t = none) :
    extract_pass (t ++ 0 :: rest) len1 w = some ⟨t ++ 0 :: rest, t.length, [], [], 0, false⟩ := by
  have hs := strstr_at [] t rest ht0
  simp only [ht, Option.map_none', List.nil_append, List.length_nil] at hs
  obtain ⟨mem2, hc, _, _, _, hsame⟩ := compact_spec [] t rest ht0
  simp only [List.nil_append, List.length_nil] at hc hsame
  rw [hsame trivial] at hc
  have hsz : SLOT_SIZE = 2047 + 1 := rfl
  unfold extract_pass
  rw [hsz]
  simp only [scan_messages, hs, Bool.false_eq_true, ↓reduceIte, hc]

/-! ## The append -/

theorem append_chunk_fits (mem : List Nat) (len : Nat) (data : List Nat)
    (hlen : mem.length = SLOT_SIZE) (hfit : len + data.length < SLOT_SIZE) :
    append_chunk mem len data
      = some (mem.take len ++ data ++ 0 :: mem.drop (len + data.length + 1),
          len + data.length) := by
  have hcpy : memcpy mem len data
      = some (mem.take len ++ data ++ mem.drop (len + data.length)) := by
    unfold memcpy
    rw [if_pos (by omega)]
  obtain ⟨d, hdrop⟩ : ∃ d, mem.drop (len + data.length)
      = d :: mem.drop (len + data.length + 1) :=
    ⟨_, List.drop_eq_getElem_cons (by omega)⟩
  have hl : (mem.take len ++ data).length = len + data.length := by
    simp; omega
  have hst := store_at (mem.take len ++ data) (mem.drop (len + data.length + 1)) d 0
  rw [hl, ← hdrop] at hst
  unfold append_chunk
  rw [if_pos hfit, hcpy]
  simp only [hst]

theorem append_chunk_full (mem : List Nat) (len : Nat) (data : List Nat)
    (hfit : ¬ len + data.length < SLOT_SIZE) :
    append_chunk mem len data = some (mem, len) := by
  unfold append_chunk
  rw [if_neg hfit]

theorem terminated_split {mem : List Nat} {len : Nat} (h : mem[len]? = some 0) :
    mem = mem.take len ++ 0 :: mem.drop (len + 1) := by
  obtain ⟨hlt, hget⟩ := List.getElem?_eq_some.mp h
  conv => lhs; rw [← List.take_append_drop len mem]
  rw [List.drop_eq_getElem_cons hlt, hget]

theorem mem_zero_of_terminated {mem : List Nat} {len : Nat} (h : mem[len]? = some 0) :
    0 ∈ mem := by
  rw [terminated_split h]
  simp

theorem tail_of_nul_free {str : List Nat} (h : 0 ∉ str) : 0 ∉ tail_of str := by
  obtain ⟨hd, _, _⟩ := frame_decomp str
  exact (mem_delimited_nul (frame str).1 (frame str).2 (by rw [← hd]; exact h)).2

theorem tail_of_crlf_free (str : List Nat) : findCRLF (tail_of str) = none :=
  (frame_decomp str).2.2

/-! ## One iteration of the read loop -/

/-- The pass of lines 151-174 on a NUL-terminated slot stays inside the slot and leaves a
NUL-terminated slot; unless a `write` fails, what it retains holds no delimiter and no NUL. -/
theorem extract_pass_total (mem : List Nat) (len : Nat) (w : Nat → WriteResult)
    (h : Terminated mem len) :
    ∃ s, extract_pass mem len w = some s ∧ Terminated s.mem s.len ∧
      (s.failed = false → findCRLF (s.mem.take s.len) = none ∧ 0 ∉ s.mem.take s.len) := by
  obtain ⟨hlen, hlt, hget⟩ := h
  obtain ⟨str, rest, hmem, hs0⟩ := split_at_nul mem (mem_zero_of_terminated hget)
  obtain ⟨s, hs, hslen, hsf, hsok, _, _⟩ :=
    extract_pass_spec str rest len w hs0 (by rw [← hmem, hlen])
  rw [← hmem] at hs hslen hsf
  refine ⟨s, hs, ?_, ?_⟩
  · cases hf : s.failed with
    | true =>
      obtain ⟨h1, h2⟩ := hsf hf
      exact ⟨by rw [hslen, hlen], by rw [h1]; exact hlt, by rw [h1]; exact h2 len hget⟩
    | false =>
      obtain ⟨_, _, _, _, h5, _⟩ := hsok hf
      have hlt1 : s.len < s.mem.length := (List.getElem?_eq_some.mp h5).1
      exact ⟨by rw [hslen, hlen], by rw [hslen, hlen] at hlt1; exact hlt1, h5⟩
  · intro hf
    obtain ⟨_, _, _, h4, _, _⟩ := hsok hf
    rw [h4]
    exact ⟨tail_of_crlf_free str, tail_of_nul_free hs0⟩

theorem append_chunk_terminated (mem : List Nat) (len : Nat) (data : List Nat)
    (h : SlotOK mem len) (hd : data.length ≤ READ_MAX) :
    ∃ mem1 len1, append_chunk mem len data = some (mem1, len1) ∧ Terminated mem1 len1 := by
  obtain ⟨hlen, hlt, hz⟩ := h
  have hrm : READ_MAX = 1023 := rfl
  have hss : SLOT_SIZE = 2048 := rfl
  by_cases hfit : len + data.length < SLOT_SIZE
  · refine ⟨_, _, append_chunk_fits mem len data hlen hfit, ?_, hfit, ?_⟩
    · simp; omega
    · have hl : (mem.take len ++ data).length = len + data.length := by simp; omega
      rw [← hl, List.getElem?_append_right (Nat.le_refl _)]
      simp
  · refine ⟨_, _, append_chunk_full mem len data hfit, hlen, hlt, ?_⟩
    rcases hz with h0 | h0
    · omega
    · exact h0

/-- Lines 143-175 on a reachable slot and a chunk of at most `READ_MAX` bytes: every access is
inside the slot, the slot is NUL-terminated afterwards, and unless a `write` fails the bytes
retained hold no delimiter and no NUL. -/
theorem on_data_total (mem : List Nat) (len : Nat) (data : List Nat) (w : Nat → WriteResult)
    (h : SlotOK mem len) (hd : data.length ≤ READ_MAX) :
    ∃ s, on_data mem len data w = some s ∧ Terminated s.mem s.len ∧
      (s.failed = false → findCRLF (s.mem.take s.len) = none ∧ 0 ∉ s.mem.take s.len) := by
  obtain ⟨mem1, len1, ha, ht⟩ := append_chunk_terminated mem len data h hd
  unfold on_data
  rw [ha]
  exact extract_pass_total mem1 len1 w ht

theorem cstring_split (data tl : List Nat) :
    ∃ rest, data ++ 0 :: tl = cstring data 0 ++ 0 :: rest ∧ 0 ∉ cstring data 0 := by
  induction data with
  | nil => exact ⟨tl, by simp [cstring], by simp [cstring]⟩
  | cons x xs ih =>
    obtain ⟨rest, h1, h2⟩ := ih
    simp only [cstring, List.drop_zero] at h1 h2 ⊢
    by_cases hx : x = 0
    · subst hx
      exact ⟨xs ++ 0 :: tl, by simp, by simp⟩
    · refine ⟨rest, ?_, ?_⟩
      · rw [List.takeWhile_cons]
        simp only [bne_iff_ne, ne_eq, hx, not_false_eq_true, if_true, List.cons_append, h1]
      · rw [List.takeWhile_cons]
        simp only [bne_iff_ne, ne_eq, hx, not_false_eq_true, if_true, List.mem_cons, not_or]
        exact ⟨fun h => hx h.symm, h2⟩

theorem cstring_of_nul_free (data : List Nat) (h : 0 ∉ data) : cstring data 0 = data := by
  have := takeWhile_nul data [] h
  unfold cstring
  rw [List.drop_zero]
  induction data with
  | nil => rfl
  | cons x xs ih =>
    have hx : x ≠ 0 := fun h0 => h (by simp [h0])
    have hxs : 0 ∉ xs := fun h0 => h (by simp [h0])
    rw [List.takeWhile_cons]
    simp only [bne_iff_ne, ne_eq, hx, not_false_eq_true, if_true]
    rw [ih hxs (takeWhile_nul xs [] hxs)]

/-- Lines 143-175 when the chunk fits and the bytes retained hold no NUL: the string the pass
scans is the retained bytes followed by the chunk up to its first NUL. Unless a `write` fails,
the messages found are those of that string, and what is retained afterwards are the bytes
after its last delimiter. -/
theorem on_data_exact (mem : List Nat) (len : Nat) (data : List Nat) (w : Nat → WriteResult)
    (hlen : mem.length = SLOT_SIZE) (hr0 : 0 ∉ mem.take len)
    (hfit : len + data.length < SLOT_SIZE) :
    ∃ s, on_data mem len data w = some s ∧ Terminated s.mem s.len ∧
      (s.failed = false →
        s.msgs = messages_of (mem.take len ++ cstring data 0) ∧
        s.writes = (messages_of (mem.take len ++ cstring data 0)).length ∧
        s.mem.take s.len = tail_of (mem.take len ++ cstring data 0) ∧
        0 ∉ s.mem.take s.len) ∧
      ((∀ k, w k ≠ WriteResult.fail) → s.failed = false) ∧
      ((∀ k, w k = WriteResult.wrote 4) →
        s.sent = replies (messages_of (mem.take len ++ cstring data 0)).length) := by
  have ha := append_chunk_fits mem len data hlen hfit
  obtain ⟨rest, hsplit, hc0⟩ := cstring_split data (mem.drop (len + data.length + 1))
  have hs0 : 0 ∉ mem.take len ++ cstring data 0 := by
    simp only [List.mem_append, not_or]; exact ⟨hr0, hc0⟩
  have hmem1 : mem.take len ++ data ++ 0 :: mem.drop (len + data.length + 1)
      = (mem.take len ++ cstring data 0) ++ 0 :: rest := by
    rw [List.append_assoc, hsplit, List.append_assoc]
  have hsz : (mem.take len ++ data ++ 0 :: mem.drop (len + data.length + 1)).length
      = SLOT_SIZE := by
    simp; omega
  have hend : (mem.take len ++ data ++ 0 :: mem.drop (len + data.length + 1))[len + data.length]?
      = some 0 := by
    have hl : (mem.take len ++ data).length = len + data.length := by simp; omega
    rw [← hl, List.getElem?_append_right (Nat.le_refl _)]
    simp
  rw [hmem1] at hsz hend
  obtain ⟨s, hs, hslen, hsf, hsok, hnf, hall⟩ :=
    extract_pass_spec (mem.take len ++ cstring data 0) rest (len + data.length) w hs0
      (Nat.le_of_eq hsz)
  unfold on_data
  rw [ha, hmem1]
  refine ⟨s, hs, ?_, ?_, hnf, hall⟩
  · cases hf : s.failed with
    | true =>
      obtain ⟨h1, h2⟩ := hsf hf
      refine ⟨by rw [hslen, hsz], by rw [h1]; exact hfit, ?_⟩
      rw [h1]
      exact h2 _ hend
    | false =>
      obtain ⟨_, _, _, _, h5, _⟩ := hsok hf
      have hlt1 : s.len < s.mem.length := (List.getElem?_eq_some.mp h5).1
      exact ⟨by rw [hslen, hsz], by rw [hslen, hsz] at hlt1; exact hlt1, h5⟩
  · intro hf
    obtain ⟨h1, h2, _, h4, _, _⟩ := hsok hf
    exact ⟨h1, h2, h4, by rw [h4]; exact tail_of_nul_free hs0⟩

/-- Lines 143-175 when the chunk does not fit behind a delimiter-free string: the chunk is
dropped, nothing is written and the slot is left as it was. -/
theorem on_data_full (mem : List Nat) (len : Nat) (data : List Nat) (w : Nat → WriteResult)
    (hget : mem[len]? = some 0) (hr0 : 0 ∉ mem.take len)
    (hr : findCRLF (mem.take len) = none) (hfit : ¬ len + data.length < SLOT_SIZE) :
    on_data mem len data w = some ⟨mem, len, [], [], 0, false⟩ := by
  have hlt : len < mem.length := (List.getElem?_eq_some.mp hget).1
  have hl : (mem.take len).length = len := by simp; omega
  have h := extract_pass_idle (mem.take len) (mem.drop (len + 1)) len w hr0 hr
  rw [← terminated_split hget, hl] at h
  unfold on_data
  rw [append_chunk_full mem len data hfit]
  exact h

/-! ## The handler -/

theorem put_buffer (st : State) (idx : Nat) (mem : List Nat) (len : Nat) :
    (st.put idx mem len).client_buffers idx = mem ∧ (st.put idx mem len).buffer_lens idx = len := by
  simp [State.put]

theorem put_other (st : State) (idx j : Nat) (mem : List Nat) (len : Nat) (h : j ≠ idx) :
    (st.put idx mem len).client_buffers j = st.client_buffers j ∧
      (st.put idx mem len).buffer_lens j = st.buffer_lens j := by
  simp [State.put, Function.update_noteq h]

theorem put_content (st : State) (idx : Nat) (mem : List Nat) (len : Nat) :
    (st.put idx mem len).content idx = mem.take len := by
  simp [State.content, State.put]

/-- The call on a chunk that is not empty: lines 143-175, then the next `read`. -/
theorem handle_cons_bytes (st : State) (fd : Nat) (data : List Nat) (rest : List ReadResult)
    (w : Nat → WriteResult) (hd : data ≠ []) :
    handle_client_data st fd (ReadResult.bytes data :: rest) w =
      match on_data (st.client_buffers (fd % NUM_SLOTS)) (st.buffer_lens (fd % NUM_SLOTS))
          data w with
      | none => none
      | some s =>
        if s.failed then some ⟨-1, st.put (fd % NUM_SLOTS) s.mem s.len, s.msgs, s.sent⟩
        else
          match handle_client_data (st.put (fd % NUM_SLOTS) s.mem s.len) fd rest
              (fun k => w (k + s.writes)) with
          | none => none
          | some r => some ⟨r.ret, r.st, s.msgs ++ r.msgs, s.sent ++ r.sent⟩ := by
  have h : ¬ data.length = 0 := fun h => hd (List.length_eq_zero.mp h)
  simp only [handle_client_data, h, if_false]

/-- The handler touches no slot but the one of its descriptor. -/
theorem handle_frame (fd : Nat) : ∀ (reads : List ReadResult) (st : State)
    (w : Nat → WriteResult) (r : Result), handle_client_data st fd reads w = some r →
    ∀ j, j ≠ fd % NUM_SLOTS →
      r.st.client_buffers j = st.client_buffers j ∧ r.st.buffer_lens j = st.buffer_lens j := by
  intro reads
  induction reads with
  | nil =>
    intro st w r h j _
    simp only [handle_client_data, Option.some.injEq] at h
    subst h; exact ⟨rfl, rfl⟩
  | cons rd rest ih =>
    intro st w r h j hj
    cases rd with
    | eagain =>
      simp only [handle_client_data, Option.some.injEq] at h
      subst h; exact ⟨rfl, rfl⟩
    | error =>
      simp only [handle_client_data, Option.some.injEq] at h
      subst h; exact ⟨rfl, rfl⟩
    | bytes data =>
      by_cases hd : data = []
      · subst hd
        simp only [handle_client_data, List.length_nil, if_true, Option.some.injEq] at h
        subst h
        exact ⟨rfl, by simp [Function.update_noteq hj]⟩
      · rw [handle_cons_bytes st fd data rest w hd] at h
        cases hs : on_data (st.client_buffers (fd % NUM_SLOTS))
            (st.buffer_lens (fd % NUM_SLOTS)) data w with
        | none => simp [hs] at h
        | some s =>
          simp only [hs] at h
          by_cases hf : s.failed = true
          · simp only [hf, if_true, Option.some.injEq] at h
            subst h
            exact put_other st _ j s.mem s.len hj
          · simp only [hf, Bool.false_eq_true, if_false] at h
            cases hr : handle_client_data (st.put (fd % NUM_SLOTS) s.mem s.len) fd rest
                (fun k => w (k + s.writes)) with
            | none => simp [hr] at h
            | some r1 =>
              simp only [hr, Option.some.injEq] at h
              subst h
              have h1 := ih _ _ r1 hr j hj
              have h2 := put_other st _ j s.mem s.len hj
              exact ⟨h1.1.trans h2.1, h1.2.trans h2.2⟩

/-- From a reachable slot and `read` results of at most `READ_MAX` bytes the handler stays
inside the slot, returns `0` or `-1`, and leaves a reachable slot. -/
theorem handle_total (fd : Nat) : ∀ (reads : List ReadResult) (st : State)
    (w : Nat → WriteResult),
    SlotOK (st.client_buffers (fd % NUM_SLOTS)) (st.buffer_lens (fd % NUM_SLOTS)) →
    (∀ rd ∈ reads, ValidRead rd) →
    ∃ r, handle_client_data st fd reads w = some r ∧ (r.ret = 0 ∨ r.ret = -1) ∧
      SlotOK (r.st.client_buffers (fd % NUM_SLOTS)) (r.st.buffer_lens (fd % NUM_SLOTS)) := by
  intro reads
  induction reads with
  | nil => intro st w h _; exact ⟨_, rfl, Or.inl rfl, h⟩
  | cons rd rest ih =>
    intro st w h hv
    have hrest : ∀ x ∈ rest, ValidRead x := fun x hx => hv x (List.mem_cons_of_mem _ hx)
    cases rd with
    | eagain => exact ⟨_, rfl, Or.inl rfl, h⟩
    | error => exact ⟨_, rfl, Or.inr rfl, h⟩
    | bytes data =>
      by_cases hd : data = []
      · subst hd
        have he : handle_client_data st fd (ReadResult.bytes [] :: rest) w
            = some ⟨-1, ⟨st.client_buffers,
                Function.update st.buffer_lens (fd % NUM_SLOTS) 0⟩, [], []⟩ := by
          simp only [handle_client_data, List.length_nil, if_true]
        refine ⟨_, he, Or.inr rfl, ?_⟩
        simp only [Function.update_same]
        exact ⟨h.1, by decide, Or.inl rfl⟩
      · have hdl : data.length ≤ READ_MAX := hv (ReadResult.bytes data) (List.mem_cons_self _ _)
        obtain ⟨s, hs, hst, _⟩ := on_data_total _ _ data w h hdl
        have hok : SlotOK ((st.put (fd % NUM_SLOTS) s.mem s.len).client_buffers (fd % NUM_SLOTS))
            ((st.put (fd % NUM_SLOTS) s.mem s.len).buffer_lens (fd % NUM_SLOTS)) := by
          rw [(put_buffer st _ s.mem s.len).1, (put_buffer st _ s.mem s.len).2]
          exact ⟨hst.1, hst.2.1, Or.inr hst.2.2⟩
        rw [handle_cons_bytes st fd data rest w hd, hs]
        by_cases hf : s.failed = true
        · simp only [hf, if_true]
          exact ⟨_, rfl, Or.inr rfl, hok⟩
        · simp only [hf, Bool.false_eq_true, if_false]
          obtain ⟨r1, hr1, hret, hok1⟩ := ih _ (fun k => w (k + s.writes)) hok hrest
          rw [hr1]
          exact ⟨_, rfl, hret, hok1⟩

/-- From a NUL-terminated slot and `read` results that are chunks of 1 to `READ_MAX` bytes,
would-blocks or errors, the handler stays inside the slot and leaves it NUL-terminated. -/
theorem handle_terminated (fd : Nat) : ∀ (reads : List ReadResult) (st : State)
    (w : Nat → WriteResult),
    Terminated (st.client_buffers (fd % NUM_SLOTS)) (st.buffer_lens (fd % NUM_SLOTS)) →
    (∀ rd ∈ reads, ChunkRead rd) →
    ∃ r, handle_client_data st fd reads w = some r ∧
      Terminated (r.st.client_buffers (fd % NUM_SLOTS)) (r.st.buffer_lens (fd % NUM_SLOTS)) := by
  intro reads
  induction reads with
  | nil => intro st w h _; exact ⟨_, rfl, h⟩
  | cons rd rest ih =>
    intro st w h hv
    have hrest : ∀ x ∈ rest, ChunkRead x := fun x hx => hv x (List.mem_cons_of_mem _ hx)
    cases rd with
    | eagain => exact ⟨_, rfl, h⟩
    | error => exact ⟨_, rfl, h⟩
    | bytes data =>
      have hc : 0 < data.length ∧ data.length ≤ READ_MAX :=
        hv (ReadResult.bytes data) (List.mem_cons_self _ _)
      have hd : data ≠ [] := fun h0 => by rw [h0] at hc; simp at hc
      obtain ⟨s, hs, hst, _⟩ := on_data_total _ _ data w ⟨h.1, h.2.1, Or.inr h.2.2⟩ hc.2
      have hok : Terminated ((st.put (fd % NUM_SLOTS) s.mem s.len).client_buffers (fd % NUM_SLOTS))
          ((st.put (fd % NUM_SLOTS) s.mem s.len).buffer_lens (fd % NUM_SLOTS)) := by
        rw [(put_buffer st _ s.mem s.len).1, (put_buffer st _ s.mem s.len).2]
        exact hst
      rw [handle_cons_bytes st fd data rest w hd, hs]
      by_cases hf : s.failed = true
      · simp only [hf, if_true]
        exact ⟨_, rfl, hok⟩
      · simp only [hf, Bool.false_eq_true, if_false]
        obtain ⟨r1, hr1, hok1⟩ := ih _ (fun k => w (k + s.writes)) hok hrest
        rw [hr1]
        exact ⟨_, rfl, hok1⟩

theorem replies_add (a b : Nat) : replies (a + b) = replies a ++ replies b := by
  induction a with
  | zero => simp [replies]
  | succ a ih =>
    have : a + 1 + b = (a + b) + 1 := by omega
    rw [this]
    simp [replies, ih]

/-- The handler on chunks that fit and hold no NUL, while no `write` fails: the messages found
are those of the bytes retained at first followed by the chunks, the bytes retained at the end
are the ones after their last delimiter, and the handler goes on with the next `read`. -/
theorem handle_chunks (fd : Nat) : ∀ (cs : List (List Nat)) (st : State)
    (w : Nat → WriteResult) (rest : List ReadResult),
    (st.client_buffers (fd % NUM_SLOTS)).length = SLOT_SIZE →
    0 ∉ st.content (fd % NUM_SLOTS) →
    findCRLF (st.content (fd % NUM_SLOTS)) = none →
    (∀ c ∈ cs, c ≠ [] ∧ 0 ∉ c) →
    Fits (st.content (fd % NUM_SLOTS)) cs →
    (∀ k, w k ≠ WriteResult.fail) →
    ∃ st1 sent,
      (st1.client_buffers (fd % NUM_SLOTS)).length = SLOT_SIZE ∧
      0 ∉ st1.content (fd % NUM_SLOTS) ∧
      st1.content (fd % NUM_SLOTS) = tail_of (st.content (fd % NUM_SLOTS) ++ cs.flatten) ∧
      (cs ≠ [] → Terminated (st1.client_buffers (fd % NUM_SLOTS))
        (st1.buffer_lens (fd % NUM_SLOTS))) ∧
      (cs = [] → st1 = st) ∧
      ((∀ k, w k = WriteResult.wrote 4) →
        sent = replies (messages_of (st.content (fd % NUM_SLOTS) ++ cs.flatten)).length) ∧
      handle_client_data st fd (cs.map ReadResult.bytes ++ rest) w =
        (handle_client_data st1 fd rest
          (fun k => w (k + (messages_of (st.content (fd % NUM_SLOTS) ++ cs.flatten)).length))).map
          (fun r => ⟨r.ret, r.st,
            messages_of (st.content (fd % NUM_SLOTS) ++ cs.flatten) ++ r.msgs,
            sent ++ r.sent⟩) := by
  intro cs
  induction cs with
  | nil =>
    intro st w rest hlen h0 hcr _ _ _
    have hm : messages_of (st.content (fd % NUM_SLOTS)) = [] := by
      unfold messages_of; rw [frame_of_none _ hcr]
    have ht : tail_of (st.content (fd % NUM_SLOTS)) = st.content (fd % NUM_SLOTS) := by
      unfold tail_of; rw [frame_of_none _ hcr]
    refine ⟨st, [], hlen, h0, by simp [ht], fun h => absurd rfl h, fun _ => rfl, ?_, ?_⟩
    · intro _; simp [hm, replies]
    · simp only [List.flatten_nil, List.append_nil, List.map_nil, List.nil_append, hm,
        List.length_nil, Nat.add_zero]
      cases handle_client_data st fd rest w with
      | none => rfl
      | some r => rfl
  | cons c cs ih =>
    intro st w rest hlen h0 _ hcs hfits hnf
    obtain ⟨hc, hc0⟩ := hcs c (List.mem_cons_self _ _)
    obtain ⟨hfit, hfits1⟩ := hfits
    have hlen0 : (st.content (fd % NUM_SLOTS)).length ≤ st.buffer_lens (fd % NUM_SLOTS) := by
      simp [State.content]
    by_cases hle : st.buffer_lens (fd % NUM_SLOTS) ≤ SLOT_SIZE
    · have hceq : (st.content (fd % NUM_SLOTS)).length = st.buffer_lens (fd % NUM_SLOTS) := by
        simp [State.content, hlen]; exact hle
      rw [hceq] at hfit
      obtain ⟨s, hs, hterm, hok, hsnf, hall⟩ :=
        on_data_exact (st.client_buffers (fd % NUM_SLOTS)) (st.buffer_lens (fd % NUM_SLOTS))
          c w hlen h0 hfit
      rw [cstring_of_nul_free c hc0] at hok hall
      have hf := hsnf hnf
      obtain ⟨hmsgs, hwr, htake, hnul⟩ := hok hf
      have hcont := put_content st (fd % NUM_SLOTS) s.mem s.len
      have hbuf := put_buffer st (fd % NUM_SLOTS) s.mem s.len
      change s.mem.take s.len = tail_of (st.content (fd % NUM_SLOTS) ++ c) at htake
      change s.msgs = messages_of (st.content (fd % NUM_SLOTS) ++ c) at hmsgs
      change s.writes = (messages_of (st.content (fd % NUM_SLOTS) ++ c)).length at hwr
      obtain ⟨st1, sent1, h1len, h10, h1c, h1t, h1s, h1sent, h1eq⟩ :=
        ih (st.put (fd % NUM_SLOTS) s.mem s.len) (fun k => w (k + s.writes)) rest
          (by rw [hbuf.1]; exact hterm.1) (by rw [hcont]; exact hnul)
          (by rw [hcont, htake]; exact tail_of_crlf_free _)
          (fun a ha => hcs a (List.mem_cons_of_mem _ ha))
          (by rw [hcont, htake]; exact hfits1)
          (fun k => hnf _)
      have hrs := frame_restart (st.content (fd % NUM_SLOTS) ++ c) cs.flatten
      have hfl : st.content (fd % NUM_SLOTS) ++ (c :: cs).flatten
          = st.content (fd % NUM_SLOTS) ++ c ++ cs.flatten := by simp
      have hmall : messages_of (st.content (fd % NUM_SLOTS) ++ (c :: cs).flatten)
          = s.msgs ++ messages_of ((st.put (fd % NUM_SLOTS) s.mem s.len).content
              (fd % NUM_SLOTS) ++ cs.flatten) := by
        rw [hfl, hcont, htake, hmsgs]
        unfold messages_of
        rw [hrs]
      have htall : tail_of (st.content (fd % NUM_SLOTS) ++ (c :: cs).flatten)
          = tail_of ((st.put (fd % NUM_SLOTS) s.mem s.len).content (fd % NUM_SLOTS)
              ++ cs.flatten) := by
        rw [hfl, hcont, htake]
        conv => lhs; unfold tail_of; rw [hrs]
        rfl
      refine ⟨st1, s.sent ++ sent1, h1len, h10, by rw [htall]; exact h1c, ?_, fun h => by simp at h,
        ?_, ?_⟩
      · intro _
        by_cases hcs0 : cs = []
        · rw [h1s hcs0, hbuf.1, hbuf.2]; exact hterm
        · exact h1t hcs0
      · intro haw
        rw [hall haw, h1sent (fun k => haw _), hmall, List.length_append, replies_add, hmsgs]
        rfl
      · rw [List.map_cons, List.cons_append, handle_cons_bytes st fd c _ w hc, hs]
        simp only [hf, Bool.false_eq_true, if_false]
        rw [h1eq, hmall]
        have hfun : (fun k => (fun k => w (k + s.writes))
              (k + (messages_of ((st.put (fd % NUM_SLOTS) s.mem s.len).content
                (fd % NUM_SLOTS) ++ cs.flatten)).length))
            = (fun k => w (k + (s.msgs ++ messages_of
                ((st.put (fd % NUM_SLOTS) s.mem s.len).content
                  (fd % NUM_SLOTS) ++ cs.flatten)).length)) := by
          funext k
          simp only [List.length_append]
          rw [hwr, hmsgs]
          congr 1
          omega
        rw [hfun]
        cases handle_client_data st1 fd rest _ with
        | none => rfl
        | some r => simp
    · exfalso
      have : (st.content (fd % NUM_SLOTS)).length = SLOT_SIZE := by
        simp [State.content, hlen]; omega
      omega

/-- One chunk that fits, read into a slot whose retained bytes hold no NUL, while no `write`
fails: the pass frames the retained bytes followed by the chunk up to its first NUL, and the
handler goes on with the next `read`. -/
theorem handle_step (st : State) (fd : Nat) (data : List Nat) (rest : List ReadResult)
    (w : Nat → WriteResult)
    (hlen : (st.client_buffers (fd % NUM_SLOTS)).length = SLOT_SIZE)
    (h0 : 0 ∉ st.content (fd % NUM_SLOTS)) (hd : data ≠ [])
    (hfit : st.buffer_lens (fd % NUM_SLOTS) + data.length < SLOT_SIZE)
    (hnf : ∀ k, w k ≠ WriteResult.fail) :
    ∃ mem1 len1 sent, Terminated mem1 len1 ∧
      mem1.take len1 = tail_of (st.content (fd % NUM_SLOTS) ++ cstring data 0) ∧
      ((∀ k, w k = WriteResult.wrote 4) →
        sent = replies (messages_of (st.content (fd % NUM_SLOTS) ++ cstring data 0)).length) ∧
      handle_client_data st fd (ReadResult.bytes data :: rest) w =
        (handle_client_data (st.put (fd % NUM_SLOTS) mem1 len1) fd rest
          (fun k => w (k + (messages_of (st.content (fd % NUM_SLOTS)
            ++ cstring data 0)).length))).map
          (fun r => ⟨r.ret, r.st,
            messages_of (st.content (fd % NUM_SLOTS) ++ cstring data 0) ++ r.msgs,
            sent ++ r.sent⟩) := by
  obtain ⟨s, hs, hterm, hok, hsnf, hall⟩ :=
    on_data_exact (st.client_buffers (fd % NUM_SLOTS)) (st.buffer_lens (fd % NUM_SLOTS))
      data w hlen h0 hfit
  have hf := hsnf hnf
  obtain ⟨hmsgs, hwr, htake, _⟩ := hok hf
  refine ⟨s.mem, s.len, s.sent, hterm, htake, hall, ?_⟩
  rw [handle_cons_bytes st fd data rest w hd, hs]
  simp only [hf, Bool.false_eq_true, if_false]
  change s.msgs = messages_of (st.content (fd % NUM_SLOTS) ++ cstring data 0) at hmsgs
  change s.writes = (messages_of (st.content (fd % NUM_SLOTS) ++ cstring data 0)).length at hwr
  rw [hwr, hmsgs]
  cases handle_client_data (st.put (fd % NUM_SLOTS) s.mem s.len) fd rest _ with
  | none => rfl
  | some r => rfl

theorem put_self (st : State) (idx : Nat) :
    st.put idx (st.client_buffers idx) (st.buffer_lens idx) = st := by
  cases st with
  | mk b l => simp [State.put]

/-- One chunk that does not fit behind a delimiter-free retained string is dropped: the handler
goes on with the next `read` as if the chunk had not arrived. -/
theorem handle_full (st : State) (fd : Nat) (data : List Nat) (rest : List ReadResult)
    (w : Nat → WriteResult)
    (hget : (st.client_buffers (fd % NUM_SLOTS))[st.buffer_lens (fd % NUM_SLOTS)]? = some 0)
    (h0 : 0 ∉ st.content (fd % NUM_SLOTS))
    (hcr : findCRLF (st.content (fd % NUM_SLOTS)) = none) (hd : data ≠ [])
    (hfit : ¬ st.buffer_lens (fd % NUM_SLOTS) + data.length < SLOT_SIZE) :
    handle_client_data st fd (ReadResult.bytes data :: rest) w
      = handle_client_data st fd rest w := by
  rw [handle_cons_bytes st fd data rest w hd, on_data_full _ _ data w hget h0 hcr hfit]
  simp only [Bool.false_eq_true, if_false, put_self, Nat.add_zero, List.nil_append]
  cases handle_client_data st fd rest w with
  | none => rfl
  | some r => rfl

/-- A slot that is full (2047 bytes without delimiter or NUL) drops every further chunk. -/
theorem handle_wedged (fd : Nat) (st : State)
    (hget : (st.client_buffers (fd % NUM_SLOTS))[st.buffer_lens (fd % NUM_SLOTS)]? = some 0)
    (h0 : 0 ∉ st.content (fd % NUM_SLOTS))
    (hcr : findCRLF (st.content (fd % NUM_SLOTS)) = none)
    (hfull : st.buffer_lens (fd % NUM_SLOTS) = SLOT_SIZE - 1) :
    ∀ (cs : List (List Nat)) (w : Nat → WriteResult), (∀ c ∈ cs, c ≠ []) →
      handle_client_data st fd (cs.map ReadResult.bytes) w = some ⟨0, st, [], []⟩ := by
  intro cs
  induction cs with
  | nil => intro w _; rfl
  | cons c cs ih =>
    intro w hcs
    have hc : c ≠ [] := hcs c (List.mem_cons_self _ _)
    have hcl : 0 < c.length := List.length_pos.mpr hc
    have hss : SLOT_SIZE = 2048 := rfl
    rw [List.map_cons, handle_full st fd c _ w hget h0 hcr hc (by omega)]
    exact ih w (fun a ha => hcs a (List.mem_cons_of_mem _ ha))

/-! ## More facts about the specification of the framing -/

theorem tail_of_length_le (l : List Nat) : (tail_of l).length ≤ l.length := by
  have h := (frame_decomp l).1
  have : l.length = (delimited (frame l).1).length + (frame l).2.length := by
    conv => lhs; rw [h]
    simp
  unfold tail_of
  omega

theorem fits_of_total : ∀ (cs : List (List Nat)) (r : List Nat),
    r.length + cs.flatten.length < SLOT_SIZE → (∀ c ∈ cs, c ≠ []) → Fits r cs := by
  intro cs
  induction cs with
  | nil => intro r _ _; trivial
  | cons c cs ih =>
    intro r h hne
    have hc : 0 < c.length := List.length_pos.mpr (hne c (List.mem_cons_self _ _))
    simp only [List.flatten_cons, List.length_append] at h
    refine ⟨?_, ih _ ?_ (fun a ha => hne a (List.mem_cons_of_mem _ ha))⟩
    · by_cases hcs : cs = []
      · subst hcs; simp at h; omega
      · omega
    · have := tail_of_length_le (r ++ c)
      simp only [List.length_append] at this
      omega

theorem fits_take : ∀ (cs : List (List Nat)) (r : List Nat) (k : Nat),
    Fits r cs → Fits r (cs.take k) := by
  intro cs
  induction cs with
  | nil => intro r k _; simp [Fits]
  | cons c cs ih =>
    intro r k h
    cases k with
    | zero => simp [Fits]
    | succ k => exact ⟨h.1, ih _ k h.2⟩

theorem tail_of_after_crlf (pre t : List Nat) (ht : findCRLF t = none) :
    tail_of (pre ++ 13 :: 10 :: t) = t := by
  obtain ⟨h1, h2, h3⟩ := frame_decomp pre
  have hms : ∀ m ∈ (frame pre).1 ++ [(frame pre).2], findCRLF m = none := by
    intro m hm
    rcases List.mem_append.mp hm with h | h
    · exact h2 m h
    · simp only [List.mem_singleton] at h
      rw [h]; exact h3
  have h := frame_delimited ((frame pre).1 ++ [(frame pre).2]) t hms
  have he : delimited ((frame pre).1 ++ [(frame pre).2]) ++ t = pre ++ 13 :: 10 :: t := by
    rw [delimited_append]
    simp only [delimited, List.append_nil, List.append_assoc, List.cons_append]
    conv => rhs; rw [h1]
    simp
  rw [he] at h
  unfold tail_of
  rw [h, frame_of_none t ht]

theorem findCRLF_of_append (a b : List Nat) (h : findCRLF (a ++ b) = none) :
    findCRLF a = none := by
  induction a with
  | nil => rfl
  | cons x xs ih =>
    have h1 := ih (findCRLF_cons_none h)
    apply findCRLF_cons_of_none h1
    intro hx
    cases xs with
    | nil => simp at hx
    | cons y ys =>
      simp only [List.head?_cons, Option.some.injEq] at hx
      exact findCRLF_head_none h hx

/-! ## Consequences used by the claims -/

theorem content_of_empty (st : State) (idx : Nat) (h : st.buffer_lens idx = 0) :
    st.content idx = [] := by
  simp [State.content, h]

/-- The handler on chunks that fit and hold no NUL, read until the socket would block. -/
theorem handle_chunks_done (fd : Nat) (cs : List (List Nat)) (st : State)
    (w : Nat → WriteResult)
    (hlen : (st.client_buffers (fd % NUM_SLOTS)).length = SLOT_SIZE)
    (h0 : 0 ∉ st.content (fd % NUM_SLOTS))
    (hcr : findCRLF (st.content (fd % NUM_SLOTS)) = none)
    (hcs : ∀ c ∈ cs, c ≠ [] ∧ 0 ∉ c)
    (hfit : Fits (st.content (fd % NUM_SLOTS)) cs)
    (hnf : ∀ k, w k ≠ WriteResult.fail) :
    ∃ r, handle_client_data st fd (cs.map ReadResult.bytes) w = some r ∧ r.ret = 0 ∧
      r.msgs = messages_of (st.content (fd % NUM_SLOTS) ++ cs.flatten) ∧
      ((∀ k, w k = WriteResult.wrote 4) →
        r.sent = replies (messages_of (st.content (fd % NUM_SLOTS) ++ cs.flatten)).length) ∧
      r.st.content (fd % NUM_SLOTS) = tail_of (st.content (fd % NUM_SLOTS) ++ cs.flatten) ∧
      (r.st.client_buffers (fd % NUM_SLOTS)).length = SLOT_SIZE ∧
      0 ∉ r.st.content (fd % NUM_SLOTS) ∧
      (cs ≠ [] → Terminated (r.st.client_buffers (fd % NUM_SLOTS))
        (r.st.buffer_lens (fd % NUM_SLOTS))) ∧
      (cs = [] → r.st = st) := by
  obtain ⟨st1, sent, h1len, h10, h1c, h1t, h1s, h1sent, h1eq⟩ :=
    handle_chunks fd cs st w [] hlen h0 hcr hcs hfit hnf
  rw [List.append_nil] at h1eq
  refine ⟨_, h1eq, rfl, by simp [handle_client_data], ?_, h1c, h1len, h10, h1t, h1s⟩
  intro haw
  simp [handle_client_data, h1sent haw]

theorem terminated_len {mem : List Nat} {len : Nat} (h : Terminated mem len) :
    (mem.take len).length = len := by
  obtain ⟨h1, h2, _⟩ := h
  simp; omega

/-! ## C1 : framing across chunks -/

/-- C1 (as amended). Chunks that are not empty and hold no NUL byte are read into an empty slot,
none of them meets the guard of line 145 (`Fits`), and no `write` returns `-1`. If their
concatenation is the delimited messages `ms` followed by a delimiter-free tail `t`, the
handler returns `0`, the passes find exactly the messages `ms` in order, and the slot retains
`t`; one further chunk CR LF (which fits) then yields exactly the message `t` and leaves the
slot empty. -/
theorem framing_of_chunks (st : State) (fd : Nat) (cs ms : List (List Nat)) (t : List Nat)
    (w w2 : Nat → WriteResult)
    (hlen : (st.client_buffers (fd % NUM_SLOTS)).length = SLOT_SIZE)
    (hempty : st.buffer_lens (fd % NUM_SLOTS) = 0)
    (hcs : ∀ c ∈ cs, c ≠ [] ∧ 0 ∉ c)
    (hfit : Fits [] cs)
    (hroom : t.length + 2 < SLOT_SIZE)
    (hw : ∀ k, w k ≠ WriteResult.fail) (hw2 : ∀ k, w2 k ≠ WriteResult.fail)
    (hms : ∀ m ∈ ms, findCRLF m = none) (ht : findCRLF t = none)
    (hcat : cs.flatten = delimited ms ++ t) :
    ∃ r, handle_client_data st fd (cs.map ReadResult.bytes) w = some r ∧ r.ret = 0 ∧
      r.msgs = ms ∧ r.st.content (fd % NUM_SLOTS) = t ∧
      ∃ r2, handle_client_data r.st fd [ReadResult.bytes CRLF] w2 = some r2 ∧ r2.ret = 0 ∧
        r2.msgs = [t] ∧ r2.st.content (fd % NUM_SLOTS) = [] := by
  have hc := content_of_empty st _ hempty
  obtain ⟨r, hr, hret, hmsgs, _, hcont, hrlen, hr0, _, _⟩ :=
    handle_chunks_done fd cs st w hlen (by rw [hc]; simp) (by rw [hc]; rfl) hcs
      (by rw [hc]; exact hfit) hw
  have hfr : frame (delimited ms ++ t) = (ms, t) := by
    rw [frame_delimited ms t hms, frame_of_none t ht]; simp
  rw [hc, List.nil_append, hcat] at hmsgs hcont
  unfold messages_of at hmsgs
  unfold tail_of at hcont
  rw [hfr] at hmsgs hcont
  refine ⟨r, hr, hret, hmsgs, hcont, ?_⟩
  have hfit2 : Fits (r.st.content (fd % NUM_SLOTS)) [CRLF] := by
    rw [hcont]; exact ⟨by simpa [CRLF] using hroom, trivial⟩
  obtain ⟨r2, hr2, hret2, hmsgs2, _, hcont2, _⟩ :=
    handle_chunks_done fd [CRLF] r.st w2 hrlen hr0 (by rw [hcont]; exact ht)
      (by simp [CRLF]) hfit2 hw2
  have hfr2 : frame (t ++ 13 :: 10 :: []) = ([t], []) := by
    rw [frame_message t [] ht]; rfl
  rw [hcont] at hmsgs2 hcont2
  simp only [CRLF, List.flatten_cons, List.flatten_nil, List.append_nil] at hmsgs2 hcont2
  unfold messages_of at hmsgs2
  unfold tail_of at hcont2
  rw [hfr2] at hmsgs2 hcont2
  exact ⟨r2, hr2, hret2, hmsgs2, hcont2⟩

theorem init_length (idx : Nat) : (State.init.client_buffers idx).length = SLOT_SIZE := by
  simp [State.init]

theorem init_terminated (idx : Nat) :
    Terminated (State.init.client_buffers idx) (State.init.buffer_lens idx) := by
  have hpos : 0 < SLOT_SIZE := by decide
  refine ⟨init_length idx, hpos, ?_⟩
  show (List.replicate SLOT_SIZE 0)[0]? = some 0
  exact List.getElem?_replicate_of_lt hpos

/-- C1, an instance: "PI" then "NG\r\nA" framed from the zero-initialised arrays. -/
theorem framing_of_chunks_witness :
    ((∀ c ∈ [[80, 73], [78, 71, 13, 10, 65]], c ≠ [] ∧ 0 ∉ c) ∧
      Fits [] [[80, 73], [78, 71, 13, 10, 65]] ∧
      [[80, 73], [78, 71, 13, 10, 65]].flatten = delimited [[80, 73, 78, 71]] ++ [65]) ∧
    ∃ r, handle_client_data State.init 5
        ([[80, 73], [78, 71, 13, 10, 65]].map ReadResult.bytes) all_written = some r ∧
      r.ret = 0 ∧ r.msgs = [[80, 73, 78, 71]] ∧ r.st.content (5 % NUM_SLOTS) = [65] ∧
      ∃ r2, handle_client_data r.st 5 [ReadResult.bytes CRLF] all_written = some r2 ∧
        r2.ret = 0 ∧ r2.msgs = [[65]] ∧ r2.st.content (5 % NUM_SLOTS) = [] :=
  ⟨⟨by decide, by decide, by decide⟩,
    framing_of_chunks State.init 5 [[80, 73], [78, 71, 13, 10, 65]] [[80, 73, 78, 71]] [65]
      all_written all_written (init_length _) rfl (by decide) (by decide) (by decide)
      (fun _ h => WriteResult.noConfusion h) (fun _ h => WriteResult.noConfusion h)
      (by decide) (by decide) (by decide)⟩

/-- C1, a counterexample: the single chunk "A\0B\r\n" is one CR LF terminated message and an
empty tail, and the handler finds no message in it (the scan stops at the NUL byte). -/
theorem framing_of_chunks_counterexample :
    [65, 0, 66, 13, 10] = delimited [[65, 0, 66]] ++ [] ∧
    ∃ r, handle_client_data State.init 5 [ReadResult.bytes [65, 0, 66, 13, 10]] all_written
        = some r ∧ r.ret = 0 ∧ r.msgs = [] ∧ r.msgs ≠ [[65, 0, 66]] ∧
      r.st.content (5 % NUM_SLOTS) = [65] := by
  refine ⟨by decide, ?_⟩
  obtain ⟨mem1, len1, sent, hterm, htake, _, heq⟩ :=
    handle_step State.init 5 [65, 0, 66, 13, 10] [] all_written (init_length _)
      (by simp [State.content, State.init]) (by decide) (by decide)
      (fun _ h => WriteResult.noConfusion h)
  have hc : State.init.content (5 % NUM_SLOTS) ++ cstring [65, 0, 66, 13, 10] 0 = [65] := by
    decide
  rw [hc] at htake heq
  have hm : messages_of [65] = [] := by decide
  have ht : tail_of [65] = [65] := by decide
  rw [hm] at heq
  rw [ht] at htake
  refine ⟨_, heq, rfl, rfl, by simp [handle_client_data], ?_⟩
  simp only [handle_client_data, Option.map_some']
  rw [put_content, htake]

/-! ## C2 : one reply per message -/

/-- C2 (as amended). Chunks that are not empty and hold no NUL byte are read into an empty slot,
none of them meets the guard of line 145, and every `write` takes the whole payload. Then for
every `k`, once the first `k` chunks are processed the socket has received exactly one
"ok\r\n" per message that the first `k` chunks complete, whatever the messages hold: the
reply to a message is written while the chunk that completes it is processed, and a chunk that
completes no message writes nothing. -/
theorem one_reply_per_message (st : State) (fd : Nat) (cs : List (List Nat))
    (w : Nat → WriteResult) (k : Nat)
    (hlen : (st.client_buffers (fd % NUM_SLOTS)).length = SLOT_SIZE)
    (hempty : st.buffer_lens (fd % NUM_SLOTS) = 0)
    (hcs : ∀ c ∈ cs, c ≠ [] ∧ 0 ∉ c)
    (hfit : Fits [] cs)
    (hw : ∀ k, w k = WriteResult.wrote 4) :
    ∃ r, handle_client_data st fd ((cs.take k).map ReadResult.bytes) w = some r ∧ r.ret = 0 ∧
      r.sent = replies (messages_of (cs.take k).flatten).length := by
  have hc := content_of_empty st _ hempty
  have hnf : ∀ k, w k ≠ WriteResult.fail := fun k h => by rw [hw k] at h; cases h
  obtain ⟨r, hr, hret, _, hsent, _⟩ :=
    handle_chunks_done fd (cs.take k) st w hlen (by rw [hc]; simp) (by rw [hc]; rfl)
      (fun c hc1 => hcs c (List.mem_of_mem_take hc1))
      (by rw [hc]; exact fits_take cs [] k hfit) hnf
  have := hsent hw
  rw [hc, List.nil_append] at this
  exact ⟨r, hr, hret, this⟩

/-- C2, instances: "PING\r\n" gives one reply; "PI" then "NG\r\n" gives none after the first
chunk and one after the second; "A\r\nB\r\n" gives two. -/
theorem one_reply_per_message_witness :
    (∃ r, handle_client_data State.init 5
        (([[80, 73, 78, 71, 13, 10]].take 1).map ReadResult.bytes) all_written = some r ∧
      r.ret = 0 ∧ r.sent = replies (messages_of ([[80, 73, 78, 71, 13, 10]].take 1).flatten).length) ∧
    (∃ r, handle_client_data State.init 5
        (([[80, 73], [78, 71, 13, 10]].take 1).map ReadResult.bytes) all_written = some r ∧
      r.ret = 0 ∧ r.sent = replies (messages_of ([[80, 73], [78, 71, 13, 10]].take 1).flatten).length) ∧
    (∃ r, handle_client_data State.init 5
        (([[80, 73], [78, 71, 13, 10]].take 2).map ReadResult.bytes) all_written = some r ∧
      r.ret = 0 ∧ r.sent = replies (messages_of ([[80, 73], [78, 71, 13, 10]].take 2).flatten).length) ∧
    (∃ r, handle_client_data State.init 5
        (([[65, 13, 10, 66, 13, 10]].take 1).map ReadResult.bytes) all_written = some r ∧
      r.ret = 0 ∧ r.sent = replies (messages_of ([[65, 13, 10, 66, 13, 10]].take 1).flatten).length) ∧
    replies (messages_of ([[80, 73, 78, 71, 13, 10]].take 1).flatten).length = response ∧
    replies (messages_of ([[80, 73], [78, 71, 13, 10]].take 1).flatten).length = [] ∧
    replies (messages_of ([[80, 73], [78, 71, 13, 10]].take 2).flatten).length = response ∧
    replies (messages_of ([[65, 13, 10, 66, 13, 10]].take 1).flatten).length
      = response ++ response :=
  ⟨one_reply_per_message State.init 5 [[80, 73, 78, 71, 13, 10]] all_written 1
      (init_length _) rfl (by decide) (by decide) (fun _ => rfl),
    one_reply_per_message State.init 5 [[80, 73], [78, 71, 13, 10]] all_written 1
      (init_length _) rfl (by decide) (by decide) (fun _ => rfl),
    one_reply_per_message State.init 5 [[80, 73], [78, 71, 13, 10]] all_written 2
      (init_length _) rfl (by decide) (by decide) (fun _ => rfl),
    one_reply_per_message State.init 5 [[65, 13, 10, 66, 13, 10]] all_written 1
      (init_length _) rfl (by decide) (by decide) (fun _ => rfl),
    by decide, by decide, by decide, by decide⟩

/-- C2, a counterexample: the chunk "PI\0NG\r\n" holds one CR LF delimited message, and the
handler writes no reply for it. -/
theorem one_reply_per_message_counterexample :
    messages_of [80, 73, 0, 78, 71, 13, 10] = [[80, 73, 0, 78, 71]] ∧
    ∃ r, handle_client_data State.init 5 [ReadResult.bytes [80, 73, 0, 78, 71, 13, 10]]
        all_written = some r ∧ r.ret = 0 ∧ r.sent = [] := by
  refine ⟨by decide, ?_⟩
  obtain ⟨mem1, len1, sent, _, _, hsent, heq⟩ :=
    handle_step State.init 5 [80, 73, 0, 78, 71, 13, 10] [] all_written (init_length _)
      (by simp [State.content, State.init]) (by decide) (by decide)
      (fun _ h => WriteResult.noConfusion h)
  have hc : State.init.content (5 % NUM_SLOTS) ++ cstring [80, 73, 0, 78, 71, 13, 10] 0
      = [80, 73] := by decide
  rw [hc] at hsent heq
  have hm : messages_of [80, 73] = [] := by decide
  rw [hm] at hsent heq
  have hs : sent = [] := hsent (fun _ => rfl)
  subst hs
  exact ⟨_, heq, rfl, by simp [handle_client_data]⟩

/-! ## C3 : fragmentation invariance -/

/-- C3 (as amended). A message `m` without NUL byte, followed by CR LF and at most 2047 bytes
long with it, is read into an empty slot once as a single chunk and once split into any
number of chunks that are not empty, every `write` taking the whole payload: both runs return
`0`, find the same messages (the message `m` alone when `m` holds no CR LF), write the same
replies and leave the same retained bytes and the same length. -/
theorem fragmentation_invariance (st : State) (fd : Nat) (m : List Nat) (cs : List (List Nat))
    (w w1 : Nat → WriteResult)
    (hlen : (st.client_buffers (fd % NUM_SLOTS)).length = SLOT_SIZE)
    (hempty : st.buffer_lens (fd % NUM_SLOTS) = 0)
    (hm0 : 0 ∉ m) (hne : ∀ c ∈ cs, c ≠ []) (hsplit : cs.flatten = m ++ CRLF)
    (hsize : (m ++ CRLF).length < SLOT_SIZE)
    (hw : ∀ k, w k = WriteResult.wrote 4) (hw1 : ∀ k, w1 k = WriteResult.wrote 4) :
    ∃ r1 r2, handle_client_data st fd [ReadResult.bytes (m ++ CRLF)] w = some r1 ∧
      handle_client_data st fd (cs.map ReadResult.bytes) w1 = some r2 ∧
      r1.ret = 0 ∧ r2.ret = 0 ∧ r2.msgs = r1.msgs ∧ r2.sent = r1.sent ∧
      r2.st.content (fd % NUM_SLOTS) = r1.st.content (fd % NUM_SLOTS) ∧
      r2.st.buffer_lens (fd % NUM_SLOTS) = r1.st.buffer_lens (fd % NUM_SLOTS) ∧
      (findCRLF m = none → r1.msgs = [m]) := by
  have hc := content_of_empty st _ hempty
  have hnf : ∀ k, w k ≠ WriteResult.fail := fun k h => by rw [hw k] at h; cases h
  have hnf1 : ∀ k, w1 k ≠ WriteResult.fail := fun k h => by rw [hw1 k] at h; cases h
  have hall0 : 0 ∉ m ++ CRLF := by simp [CRLF, hm0]
  have hcs0 : ∀ c ∈ cs, c ≠ [] ∧ 0 ∉ c := by
    intro c hcin
    refine ⟨hne c hcin, fun h0 => hall0 ?_⟩
    rw [← hsplit]
    exact List.mem_flatten_of_mem hcin h0
  have hcsne : cs ≠ [] := by
    intro h; rw [h] at hsplit; simp [CRLF] at hsplit
  obtain ⟨r1, hr1, hret1, hmsgs1, hsent1, hcont1, _, _, hterm1, _⟩ :=
    handle_chunks_done fd [m ++ CRLF] st w hlen (by rw [hc]; simp) (by rw [hc]; rfl)
      (fun c hcin => by
        rw [List.mem_singleton.mp hcin]
        exact ⟨by simp [CRLF], hall0⟩)
      (by rw [hc]; exact fits_of_total _ _ (by simpa using hsize) (by simp [CRLF])) hnf
  obtain ⟨r2, hr2, hret2, hmsgs2, hsent2, hcont2, _, _, hterm2, _⟩ :=
    handle_chunks_done fd cs st w1 hlen (by rw [hc]; simp) (by rw [hc]; rfl) hcs0
      (by rw [hc]; exact fits_of_total _ _ (by rw [hsplit]; simpa using hsize) hne) hnf1
  have hfl : [m ++ CRLF].flatten = m ++ CRLF := by simp
  rw [hfl] at hmsgs1 hsent1 hcont1
  rw [hsplit] at hmsgs2 hsent2 hcont2
  have hl1 := terminated_len (hterm1 (by simp))
  have hl2 := terminated_len (hterm2 hcsne)
  have hcc : r2.st.content (fd % NUM_SLOTS) = r1.st.content (fd % NUM_SLOTS) := by
    rw [hcont1, hcont2]
  refine ⟨r1, r2, hr1, hr2, hret1, hret2, by rw [hmsgs1, hmsgs2],
    by rw [hsent1 hw, hsent2 hw1], hcc, ?_, ?_⟩
  · have h := congrArg List.length hcc
    unfold State.content at h
    rw [hl1, hl2] at h
    exact h
  · intro hm
    rw [hmsgs1, hc, List.nil_append]
    unfold messages_of
    show (frame (m ++ 13 :: 10 :: [])).1 = [m]
    rw [frame_message m [] hm]
    rfl

/-- C3, an instance: "PING\r\n" whole and split as "P", "IN", "G\r", "\n". -/
theorem fragmentation_invariance_witness :
    ((0 ∉ [80, 73, 78, 71]) ∧
      [[80], [73, 78], [71, 13], [10]].flatten = [80, 73, 78, 71] ++ CRLF) ∧
    ∃ r1 r2, handle_client_data State.init 5 [ReadResult.bytes ([80, 73, 78, 71] ++ CRLF)]
        all_written = some r1 ∧
      handle_client_data State.init 5 ([[80], [73, 78], [71, 13], [10]].map ReadResult.bytes)
        all_written = some r2 ∧
      r1.ret = 0 ∧ r2.ret = 0 ∧ r2.msgs = r1.msgs ∧ r2.sent = r1.sent ∧
      r2.st.content (5 % NUM_SLOTS) = r1.st.content (5 % NUM_SLOTS) ∧
      r2.st.buffer_lens (5 % NUM_SLOTS) = r1.st.buffer_lens (5 % NUM_SLOTS) ∧
      (findCRLF [80, 73, 78, 71] = none → r1.msgs = [[80, 73, 78, 71]]) :=
  ⟨⟨by decide, by decide⟩,
    fragmentation_invariance State.init 5 [80, 73, 78, 71] [[80], [73, 78], [71, 13], [10]]
      all_written all_written (init_length _) rfl (by decide) (by decide) (by decide)
      (by decide) (fun _ => rfl) (fun _ => rfl)⟩

/-- C3, a counterexample: the message "A\0" followed by CR LF leaves the byte "A" in the slot
when it arrives whole, and the bytes "A\n" when it arrives as "A\0\r" then "\n". -/
theorem fragmentation_invariance_counterexample :
    [[65, 0, 13], [10]].flatten = [65, 0] ++ CRLF ∧
    ∃ r1 r2, handle_client_data State.init 5 [ReadResult.bytes ([65, 0] ++ CRLF)]
        all_written = some r1 ∧
      handle_client_data State.init 5 ([[65, 0, 13], [10]].map ReadResult.bytes)
        all_written = some r2 ∧
      r1.st.content (5 % NUM_SLOTS) = [65] ∧ r2.st.content (5 % NUM_SLOTS) = [65, 10] := by
  refine ⟨by decide, ?_⟩
  have hnf : ∀ k, all_written k ≠ WriteResult.fail := fun _ h => WriteResult.noConfusion h
  have hi0 : 0 ∉ State.init.content (5 % NUM_SLOTS) := by simp [State.content, State.init]
  -- the whole message
  obtain ⟨memA, lenA, sentA, _, htakeA, _, heqA⟩ :=
    handle_step State.init 5 ([65, 0] ++ CRLF) [] all_written (init_length _) hi0
      (by decide) (by decide) hnf
  have hcA : State.init.content (5 % NUM_SLOTS) ++ cstring ([65, 0] ++ CRLF) 0 = [65] := by
    decide
  rw [hcA] at htakeA heqA
  have htA : tail_of [65] = [65] := by decide
  rw [htA] at htakeA
  -- the first fragment
  obtain ⟨memB, lenB, sentB, htermB, htakeB, _, heqB⟩ :=
    handle_step State.init 5 [65, 0, 13] [ReadResult.bytes [10]] all_written (init_length _)
      hi0 (by decide) (by decide) hnf
  have hcB : State.init.content (5 % NUM_SLOTS) ++ cstring [65, 0, 13] 0 = [65] := by decide
  rw [hcB] at htakeB heqB
  rw [htA] at htakeB
  have hlB : lenB = 1 := by
    have := terminated_len htermB
    rw [htakeB] at this
    exact this.symm
  -- the second fragment
  have hbuf := put_buffer State.init (5 % NUM_SLOTS) memB lenB
  have hcont := put_content State.init (5 % NUM_SLOTS) memB lenB
  obtain ⟨memC, lenC, sentC, _, htakeC, _, heqC⟩ :=
    handle_step (State.init.put (5 % NUM_SLOTS) memB lenB) 5 [10] []
      (fun k => all_written (k + (messages_of [65]).length))
      (by rw [hbuf.1]; exact htermB.1) (by rw [hcont, htakeB]; decide) (by decide)
      (by rw [hbuf.2, hlB]; decide) (fun _ h => WriteResult.noConfusion h)
  rw [hcont, htakeB] at htakeC heqC
  have hcC : [65] ++ cstring [10] 0 = [65, 10] := by decide
  rw [hcC] at htakeC heqC
  have htC : tail_of [65, 10] = [65, 10] := by decide
  rw [htC] at htakeC
  rw [List.map_cons, List.map_cons, List.map_nil, heqB, heqC]
  refine ⟨_, _, heqA, rfl, ?_, ?_⟩
  · simp only [handle_client_data, Option.map_some']
    rw [put_content, htakeA]
  · simp only [handle_client_data, Option.map_some']
    rw [put_content, htakeC]

/-! ## C4 : isolation of the slots -/

/-- C4 (as amended). When two descriptors `a` and `b` map to different slots
(`a % 1024 ≠ b % 1024`), a call of the handler on `a`, whatever it reads and whatever its
writes return, stays inside the slot of `a` and leaves the bytes and the length of the slot of
`b` unchanged. -/
theorem slot_isolation (st : State) (a b : Nat) (reads : List ReadResult)
    (w : Nat → WriteResult)
    (hab : a % NUM_SLOTS ≠ b % NUM_SLOTS)
    (hok : SlotOK (st.client_buffers (a % NUM_SLOTS)) (st.buffer_lens (a % NUM_SLOTS)))
    (hv : ∀ rd ∈ reads, ValidRead rd) :
    ∃ r, handle_client_data st a reads w = some r ∧
      r.st.client_buffers (b % NUM_SLOTS) = st.client_buffers (b % NUM_SLOTS) ∧
      r.st.buffer_lens (b % NUM_SLOTS) = st.buffer_lens (b % NUM_SLOTS) := by
  obtain ⟨r, hr, _, _⟩ := handle_total a reads st w hok hv
  exact ⟨r, hr, handle_frame a reads st w r hr _ (Ne.symm hab)⟩

theorem init_slot_ok (idx : Nat) :
    SlotOK (State.init.client_buffers idx) (State.init.buffer_lens idx) :=
  ⟨init_length idx, (init_terminated idx).2.1, Or.inl rfl⟩

/-- C4, an instance: descriptors 5 and 6, the first one sending "X\r\n" and closing. -/
theorem slot_isolation_witness :
    ((5 : Nat) % NUM_SLOTS ≠ 6 % NUM_SLOTS ∧
      ∀ rd ∈ [ReadResult.bytes [88, 13, 10], ReadResult.bytes []], ValidRead rd) ∧
    ∃ r, handle_client_data State.init 5 [ReadResult.bytes [88, 13, 10], ReadResult.bytes []]
        all_written = some r ∧
      r.st.client_buffers (6 % NUM_SLOTS) = State.init.client_buffers (6 % NUM_SLOTS) ∧
      r.st.buffer_lens (6 % NUM_SLOTS) = State.init.buffer_lens (6 % NUM_SLOTS) :=
  ⟨⟨by decide, by decide⟩,
    slot_isolation State.init 5 6 [ReadResult.bytes [88, 13, 10], ReadResult.bytes []]
      all_written (by decide) (init_slot_ok _) (by decide)⟩

/-- C4, a counterexample: the distinct descriptors 5 and 1029 share slot 5, and one byte read
on descriptor 5 becomes the buffered input of descriptor 1029. -/
theorem slot_isolation_counterexample :
    (5 : Nat) ≠ 1029 ∧ State.init.buffer_lens (1029 % NUM_SLOTS) = 0 ∧
    ∃ r, handle_client_data State.init 5 [ReadResult.bytes [88]] all_written = some r ∧
      r.st.buffer_lens (1029 % NUM_SLOTS) = 1 ∧ r.st.content (1029 % NUM_SLOTS) = [88] := by
  refine ⟨by decide, rfl, ?_⟩
  obtain ⟨mem1, len1, sent, hterm, htake, _, heq⟩ :=
    handle_step State.init 5 [88] [] all_written (init_length _)
      (by simp [State.content, State.init]) (by decide) (by decide)
      (fun _ h => WriteResult.noConfusion h)
  have hc : State.init.content (5 % NUM_SLOTS) ++ cstring [88] 0 = [88] := by decide
  rw [hc] at htake heq
  have ht : tail_of [88] = [88] := by decide
  rw [ht] at htake
  have hl : len1 = 1 := by
    have := terminated_len hterm
    rw [htake] at this
    exact this.symm
  have hidx : 1029 % NUM_SLOTS = 5 % NUM_SLOTS := by decide
  refine ⟨_, heq, ?_, ?_⟩
  · simp only [handle_client_data, Option.map_some']
    rw [hidx, (put_buffer _ _ _ _).2, hl]
  · simp only [handle_client_data, Option.map_some']
    rw [hidx, put_content, htake]

/-! ## C5 : a chunk that does not fit -/

theorem findCRLF_replicate (n : Nat) : findCRLF (List.replicate n 65) = none := by
  induction n with
  | zero => rfl
  | succ n ih =>
    rw [List.replicate_succ]
    apply findCRLF_cons_of_none ih
    intro h
    exact absurd h.1 (by decide)

theorem replicate_nul_free (n : Nat) : 0 ∉ List.replicate n 65 :=
  fun h => absurd (List.eq_of_mem_replicate h) (by decide)

theorem replicate_ne_nil (n : Nat) (hn : 0 < n) : List.replicate n 65 ≠ [] := by
  intro h
  have h1 := congrArg List.length h
  rw [List.length_replicate] at h1
  simp only [List.length_nil] at h1
  omega

theorem full_state_facts :
    (full_state.client_buffers (5 % NUM_SLOTS))[full_state.buffer_lens (5 % NUM_SLOTS)]?
        = some 0 ∧
      full_state.content (5 % NUM_SLOTS) = List.replicate 2047 65 ∧
      full_state.buffer_lens (5 % NUM_SLOTS) = 2047 := by
  have hb := put_buffer State.init 5 full_slot 2047
  have hidx : 5 % NUM_SLOTS = 5 := by decide
  have hl : (List.replicate 2047 65).length = 2047 := List.length_replicate _ _
  refine ⟨?_, ?_, ?_⟩
  · rw [hidx]
    unfold full_state
    rw [hb.1, hb.2]
    unfold full_slot
    rw [List.getElem?_append_right (by rw [hl]), hl]
    rfl
  · rw [hidx]
    unfold full_state
    rw [put_content]
    unfold full_slot
    exact List.take_left' hl
  · rw [hidx]
    exact hb.2

/-- C5 (as amended). A chunk that is not empty and for which the buffered length plus the chunk
length reaches or exceeds 2048 does not fail the connection: on a slot left by a completed
pass (NUL-terminated, the retained bytes without NUL or CR LF) the guard of line 145 skips the
append, the chunk is discarded in full, nothing is written, and the handler goes on with the
next `read` as if the chunk had not arrived; followed by a would-block it returns `0` with the
arrays unchanged. -/
theorem overflow_chunk_dropped (st : State) (fd : Nat) (data : List Nat)
    (rest : List ReadResult) (w : Nat → WriteResult)
    (hget : (st.client_buffers (fd % NUM_SLOTS))[st.buffer_lens (fd % NUM_SLOTS)]? = some 0)
    (h0 : 0 ∉ st.content (fd % NUM_SLOTS))
    (hcr : findCRLF (st.content (fd % NUM_SLOTS)) = none) (hd : data ≠ [])
    (hover : SLOT_SIZE ≤ st.buffer_lens (fd % NUM_SLOTS) + data.length) :
    handle_client_data st fd (ReadResult.bytes data :: rest) w
        = handle_client_data st fd rest w ∧
      handle_client_data st fd [ReadResult.bytes data] w = some ⟨0, st, [], []⟩ := by
  have hfit : ¬ st.buffer_lens (fd % NUM_SLOTS) + data.length < SLOT_SIZE := by omega
  refine ⟨handle_full st fd data rest w hget h0 hcr hd hfit, ?_⟩
  rw [handle_full st fd data [] w hget h0 hcr hd hfit]
  rfl

/-- C5, an instance: one byte "B" read on a full slot. -/
theorem overflow_chunk_dropped_witness :
    (SLOT_SIZE ≤ full_state.buffer_lens (5 % NUM_SLOTS) + [66].length) ∧
    (handle_client_data full_state 5 [ReadResult.bytes [66], ReadResult.error] all_written
        = handle_client_data full_state 5 [ReadResult.error] all_written ∧
      handle_client_data full_state 5 [ReadResult.bytes [66]] all_written
        = some ⟨0, full_state, [], []⟩) :=
  ⟨by rw [full_state_facts.2.2]; decide,
    overflow_chunk_dropped full_state 5 [66] [ReadResult.error] all_written
      full_state_facts.1
      (by rw [full_state_facts.2.1]; exact replicate_nul_free _)
      (by rw [full_state_facts.2.1]; exact findCRLF_replicate _)
      (by decide)
      (by rw [full_state_facts.2.2]; decide)⟩

theorem filler_flatten :
    [List.replicate 1023 65, List.replicate 1023 65, [65]].flatten = List.replicate 2047 65 := by
  have h1 : ([65] : List Nat) = List.replicate 1 65 := rfl
  simp only [List.flatten_cons, List.flatten_nil, List.append_nil]
  rw [h1, List.append_replicate_replicate, List.append_replicate_replicate]

/-- The zero-initialised arrays after chunks of 1023, 1023 and 1 bytes "A": the slot is full. -/
theorem filled_from_init :
    ∃ r, handle_client_data State.init 5
        ([List.replicate 1023 65, List.replicate 1023 65, [65]].map ReadResult.bytes)
        all_written = some r ∧ r.ret = 0 ∧
      r.st.content (5 % NUM_SLOTS) = List.replicate 2047 65 ∧
      r.st.buffer_lens (5 % NUM_SLOTS) = 2047 ∧
      (r.st.client_buffers (5 % NUM_SLOTS))[r.st.buffer_lens (5 % NUM_SLOTS)]? = some 0 := by
  have hc : State.init.content (5 % NUM_SLOTS) = [] := content_of_empty _ _ rfl
  have hne : ∀ c ∈ [List.replicate 1023 65, List.replicate 1023 65, [65]], c ≠ [] := by
    intro c hcin
    simp only [List.mem_cons, List.mem_singleton, List.not_mem_nil, or_false] at hcin
    rcases hcin with h | h | h <;> rw [h]
    · exact replicate_ne_nil _ (by decide)
    · exact replicate_ne_nil _ (by decide)
    · exact replicate_ne_nil 1 (by decide)
  have hnul : ∀ c ∈ [List.replicate 1023 65, List.replicate 1023 65, [65]], c ≠ [] ∧ 0 ∉ c := by
    intro c hcin
    refine ⟨hne c hcin, ?_⟩
    simp only [List.mem_cons, List.mem_singleton, List.not_mem_nil, or_false] at hcin
    rcases hcin with h | h | h <;> rw [h]
    · exact replicate_nul_free _
    · exact replicate_nul_free _
    · exact replicate_nul_free 1
  obtain ⟨r, hr, hret, _, _, hcont, _, _, hterm, _⟩ :=
    handle_chunks_done 5 [List.replicate 1023 65, List.replicate 1023 65, [65]] State.init
      all_written (init_length _) (by rw [hc]; simp) (by rw [hc]; rfl) hnul
      (by
        rw [hc]
        apply fits_of_total _ _ _ hne
        rw [filler_flatten, List.length_replicate]
        decide)
      (fun _ h => WriteResult.noConfusion h)
  rw [hc, List.nil_append, filler_flatten] at hcont
  have ht : tail_of (List.replicate 2047 65) = List.replicate 2047 65 := by
    unfold tail_of
    rw [frame_of_none _ (findCRLF_replicate _)]
  rw [ht] at hcont
  have hterm1 := hterm (List.cons_ne_nil _ _)
  have hl : r.st.buffer_lens (5 % NUM_SLOTS) = 2047 := by
    have h := terminated_len hterm1
    have h2 := congrArg List.length hcont
    unfold State.content at h2
    rw [h, List.length_replicate] at h2
    exact h2
  exact ⟨r, hr, hret, hcont, hl, hterm1.2.2⟩

/-- C5, a counterexample: after 2047 bytes "A" (chunks of 1023, 1023 and 1 bytes) one more byte
reaches the cap of 2048, and the handler returns `0`, not `-1`. -/
theorem overflow_fatal_counterexample :
    ∃ r1, handle_client_data State.init 5
        ([List.replicate 1023 65, List.replicate 1023 65, [65]].map ReadResult.bytes)
        all_written = some r1 ∧
      SLOT_SIZE ≤ r1.st.buffer_lens (5 % NUM_SLOTS) + [66].length ∧
      ∃ r2, handle_client_data r1.st 5 [ReadResult.bytes [66]] all_written = some r2 ∧
        r2.ret = 0 ∧ r2.ret ≠ -1 ∧ r2.sent = [] := by
  obtain ⟨r1, hr1, _, hcont, hl, hget⟩ := filled_from_init
  refine ⟨r1, hr1, by rw [hl]; decide, ?_⟩
  have h := handle_full r1.st 5 [66] [] all_written hget
    (by rw [hcont]; exact replicate_nul_free _)
    (by rw [hcont]; exact findCRLF_replicate _) (by decide) (by rw [hl]; decide)
  exact ⟨_, h, rfl, fun h1 => absurd h1 (show (0 : Int) ≠ -1 by decide), rfl⟩

/-! ## C6 : teardown -/

/-- The end-of-stream path: whatever was read before, a zero-length `read` makes the handler
return `-1` with the length of the slot reset to `0` (line 141), unless a `write` failed
before. -/
theorem eof_resets_length (fd : Nat) : ∀ (cs : List (List Nat)) (st : State)
    (w : Nat → WriteResult),
    SlotOK (st.client_buffers (fd % NUM_SLOTS)) (st.buffer_lens (fd % NUM_SLOTS)) →
    (∀ c ∈ cs, 0 < c.length ∧ c.length ≤ READ_MAX) →
    (∀ k, w k ≠ WriteResult.fail) →
    ∃ r, handle_client_data st fd (cs.map ReadResult.bytes ++ [ReadResult.bytes []]) w
        = some r ∧ r.ret = -1 ∧ r.st.buffer_lens (fd % NUM_SLOTS) = 0 := by
  intro cs
  induction cs with
  | nil =>
    intro st w _ _ _
    refine ⟨⟨-1, ⟨st.client_buffers, Function.update st.buffer_lens (fd % NUM_SLOTS) 0⟩,
      [], []⟩, ?_, rfl, ?_⟩
    · simp only [List.map_nil, List.nil_append, handle_client_data, List.length_nil, if_true]
    · simp only [Function.update_same]
  | cons c cs ih =>
    intro st w hok hcs hnf
    obtain ⟨hc1, hc2⟩ := hcs c (List.mem_cons_self _ _)
    have hc : c ≠ [] := List.length_pos.mp hc1
    have hss : SLOT_SIZE = 2048 := rfl
    have hrm : READ_MAX = 1023 := rfl
    obtain ⟨s, hs, hst, _⟩ := on_data_total _ _ c w hok hc2
    have hbuf := put_buffer st (fd % NUM_SLOTS) s.mem s.len
    have hf : s.failed = false := by
      -- no write fails: the pass ends without failure
      obtain ⟨mem1, len1, ha, ht⟩ := append_chunk_terminated _ _ c hok hc2
      obtain ⟨str, rest, hmem, hs0⟩ := split_at_nul mem1 (mem_zero_of_terminated ht.2.2)
      obtain ⟨s1, hs1, _, _, _, hnf1, _⟩ :=
        extract_pass_spec str rest len1 w hs0 (by rw [← hmem, ht.1])
      have : on_data (st.client_buffers (fd % NUM_SLOTS)) (st.buffer_lens (fd % NUM_SLOTS))
          c w = some s1 := by
        unfold on_data
        rw [ha, hmem]
        exact hs1
      rw [hs] at this
      rw [Option.some.inj this]
      exact hnf1 hnf
    obtain ⟨r, hr, hret, hl⟩ := ih (st.put (fd % NUM_SLOTS) s.mem s.len)
      (fun k => w (k + s.writes))
      (by rw [hbuf.1, hbuf.2]; exact ⟨hst.1, hst.2.1, Or.inr hst.2.2⟩)
      (fun a ha => hcs a (List.mem_cons_of_mem _ ha)) (fun k => hnf _)
    refine ⟨⟨r.ret, r.st, s.msgs ++ r.msgs, s.sent ++ r.sent⟩, ?_, hret, hl⟩
    rw [List.map_cons, List.cons_append, handle_cons_bytes st fd c _ w hc, hs]
    simp only [hf, Bool.false_eq_true, if_false, hr]

/-- C6, the code at the failing input. A client on descriptor 7 sends "INCOMPLETE" and its next
`read` fails: the handler returns `-1`, the loop closes the descriptor, and the slot still
holds the 10 bytes with length 10 (only the end-of-stream path of line 141 resets the
length). The next connection accepted on descriptor 7 sends CR LF alone and is answered for the
message "INCOMPLETE" of the closed connection. -/
theorem read_error_keeps_buffer :
    ∃ sv1 r1, client_event ⟨State.init, [7]⟩ 7
        [ReadResult.bytes [73, 78, 67, 79, 77, 80, 76, 69, 84, 69], ReadResult.error]
        all_written = some (sv1, r1) ∧
      r1.ret = -1 ∧ sv1.open_fds = [] ∧ sv1.st.buffer_lens (7 % NUM_SLOTS) = 10 ∧
      sv1.st.content (7 % NUM_SLOTS) = [73, 78, 67, 79, 77, 80, 76, 69, 84, 69] ∧
      ∃ sv2 r2, client_event (accept_event sv1 7) 7 [ReadResult.bytes [13, 10]] all_written
          = some (sv2, r2) ∧
        r2.ret = 0 ∧ r2.msgs = [[73, 78, 67, 79, 77, 80, 76, 69, 84, 69]] ∧
        r2.sent = response := by
  have hnf : ∀ k, all_written k ≠ WriteResult.fail := fun _ h => WriteResult.noConfusion h
  have hc : State.init.content (7 % NUM_SLOTS) = [] := content_of_empty _ _ rfl
  obtain ⟨st1, sent, h1len, h10, h1c, h1t, _, h1sent, h1eq⟩ :=
    handle_chunks 7 [[73, 78, 67, 79, 77, 80, 76, 69, 84, 69]] State.init all_written
      [ReadResult.error] (init_length _) (by rw [hc]; simp) (by rw [hc]; rfl) (by decide)
      (by rw [hc]; decide) hnf
  have hfl : State.init.content (7 % NUM_SLOTS)
      ++ [[73, 78, 67, 79, 77, 80, 76, 69, 84, 69]].flatten
      = [73, 78, 67, 79, 77, 80, 76, 69, 84, 69] := by rw [hc]; rfl
  rw [hfl] at h1c h1sent h1eq
  have hm : messages_of [73, 78, 67, 79, 77, 80, 76, 69, 84, 69] = [] := by decide
  have ht : tail_of [73, 78, 67, 79, 77, 80, 76, 69, 84, 69]
      = [73, 78, 67, 79, 77, 80, 76, 69, 84, 69] := by decide
  rw [hm] at h1eq h1sent
  rw [ht] at h1c
  have hterm := h1t (List.cons_ne_nil _ _)
  have hl : st1.buffer_lens (7 % NUM_SLOTS) = 10 := by
    have h := terminated_len hterm
    have h2 := congrArg List.length h1c
    unfold State.content at h2
    rw [h] at h2
    exact h2
  have hcall : handle_client_data State.init 7
      [ReadResult.bytes [73, 78, 67, 79, 77, 80, 76, 69, 84, 69], ReadResult.error]
      all_written = some ⟨-1, st1, [], sent⟩ := by
    have : [ReadResult.bytes [73, 78, 67, 79, 77, 80, 76, 69, 84, 69], ReadResult.error]
        = [[73, 78, 67, 79, 77, 80, 76, 69, 84, 69]].map ReadResult.bytes
          ++ [ReadResult.error] := rfl
    rw [this, h1eq]
    simp [handle_client_data]
  obtain ⟨r2, hr2, hret2, hmsgs2, hsent2, _⟩ :=
    handle_chunks_done 7 [[13, 10]] st1 all_written h1len h10
      (by rw [h1c]; decide) (by decide) (by rw [h1c]; decide) hnf
  have hfl2 : st1.content (7 % NUM_SLOTS) ++ [[13, 10]].flatten
      = [73, 78, 67, 79, 77, 80, 76, 69, 84, 69, 13, 10] := by rw [h1c]; rfl
  rw [hfl2] at hmsgs2 hsent2
  have hm2 : messages_of [73, 78, 67, 79, 77, 80, 76, 69, 84, 69, 13, 10]
      = [[73, 78, 67, 79, 77, 80, 76, 69, 84, 69]] := by decide
  rw [hm2] at hmsgs2 hsent2
  refine ⟨⟨st1, []⟩, ⟨-1, st1, [], sent⟩, ?_, rfl, rfl, hl, h1c, ?_⟩
  · simp only [client_event, hcall]
    rfl
  · refine ⟨⟨r2.st, [7]⟩, r2, ?_, hret2, hmsgs2, ?_⟩
    · have hr2a : handle_client_data st1 7 [ReadResult.bytes [13, 10]] all_written = some r2 :=
        hr2
      simp only [client_event, accept_event, hr2a, hret2]
      rfl
    · rw [hsent2 (fun _ => rfl)]
      rfl

/-! ## C7 : what a pass retains -/

/-- C7 (as amended). An extraction pass runs on a NUL-terminated slot whose `len` buffered
bytes hold no NUL, and no `write` returns `-1`. Then the bytes retained (the first `len` bytes
of the slot afterwards) are exactly the bytes that follow the last CR LF of the content before
the pass, in order (the whole content when it holds no CR LF), and the new length is their
number. -/
theorem tail_retention (mem : List Nat) (len : Nat) (w : Nat → WriteResult)
    (hterm : Terminated mem len) (h0 : 0 ∉ mem.take len)
    (hw : ∀ k, w k ≠ WriteResult.fail) :
    ∃ s, extract_pass mem len w = some s ∧ s.failed = false ∧
      s.mem.take s.len = tail_of (mem.take len) ∧
      s.len = (tail_of (mem.take len)).length ∧
      (∀ pre t, mem.take len = pre ++ 13 :: 10 :: t → findCRLF t = none →
        s.mem.take s.len = t) ∧
      (findCRLF (mem.take len) = none → s.mem.take s.len = mem.take len) := by
  obtain ⟨hlen, _, hget⟩ := hterm
  have hsplit := terminated_split hget
  obtain ⟨s, hs, _, _, hsok, hnf, _⟩ :=
    extract_pass_spec (mem.take len) (mem.drop (len + 1)) len w h0
      (by rw [← hsplit, hlen])
  rw [← hsplit] at hs
  have hf := hnf hw
  obtain ⟨_, _, h3, h4, _, _⟩ := hsok hf
  refine ⟨s, hs, hf, h4, h3, ?_, ?_⟩
  · intro pre t hpre ht
    rw [h4, hpre]
    exact tail_of_after_crlf pre t ht
  · intro hcr
    rw [h4]
    unfold tail_of
    rw [frame_of_none _ hcr]

theorem sample_slot_facts :
    Terminated sample_slot 4 ∧ sample_slot.take 4 = [65, 13, 10, 66] := by
  have hl : ([65, 13, 10, 66] : List Nat).length = 4 := rfl
  refine ⟨⟨?_, by decide, ?_⟩, ?_⟩
  · unfold sample_slot
    rw [List.length_append, hl, List.length_cons, List.length_replicate]
    rfl
  · unfold sample_slot
    rw [List.getElem?_append_right (by rw [hl]), hl]
    simp only [Nat.sub_self, List.getElem?_cons_zero]
  · unfold sample_slot
    exact List.take_left' hl

/-- C7, an instance: a pass over the content "A\r\nB" retains "B". -/
theorem tail_retention_witness :
    (Terminated sample_slot 4 ∧ 0 ∉ sample_slot.take 4) ∧
    ∃ s, extract_pass sample_slot 4 all_written = some s ∧ s.failed = false ∧
      s.mem.take s.len = tail_of (sample_slot.take 4) ∧
      s.len = (tail_of (sample_slot.take 4)).length ∧
      (∀ pre t, sample_slot.take 4 = pre ++ 13 :: 10 :: t → findCRLF t = none →
        s.mem.take s.len = t) ∧
      (findCRLF (sample_slot.take 4) = none → s.mem.take s.len = sample_slot.take 4) :=
  ⟨⟨sample_slot_facts.1, by rw [sample_slot_facts.2]; decide⟩,
    tail_retention sample_slot 4 all_written sample_slot_facts.1
      (by rw [sample_slot_facts.2]; decide) (fun _ h => WriteResult.noConfusion h)⟩

/-- C7, a counterexample: the chunk "A\0B" appended to the empty slot gives the content "A\0B"
of length 3, which holds no CR LF; the pass retains "A" alone. -/
theorem tail_retention_counterexample :
    ∃ mem1, append_chunk (State.init.client_buffers 5) (State.init.buffer_lens 5) [65, 0, 66]
        = some (mem1, 3) ∧
      mem1.take 3 = [65, 0, 66] ∧ findCRLF [65, 0, 66] = none ∧
      ∃ s, extract_pass mem1 3 all_written = some s ∧ s.failed = false ∧
        s.mem.take s.len = [65] ∧ s.len = 1 := by
  have ha := append_chunk_fits (State.init.client_buffers 5) (State.init.buffer_lens 5)
    [65, 0, 66] (init_length 5) (by decide)
  have hmem : List.take (State.init.buffer_lens 5) (State.init.client_buffers 5) ++ [65, 0, 66]
      ++ 0 :: List.drop (State.init.buffer_lens 5 + [65, 0, 66].length + 1)
        (State.init.client_buffers 5)
      = [65] ++ 0 :: (66 :: 0 :: List.drop 4 (State.init.client_buffers 5)) := rfl
  rw [hmem] at ha
  have hsz : ([65] ++ 0 :: (66 :: 0 :: List.drop 4 (State.init.client_buffers 5))).length
      ≤ SLOT_SIZE := by
    have := init_length 5
    simp only [List.length_append, List.length_cons, List.length_nil, List.length_drop, this]
    decide
  obtain ⟨s, hs, _, _, hsok, hnf, _⟩ :=
    extract_pass_spec [65] (66 :: 0 :: List.drop 4 (State.init.client_buffers 5)) 3
      all_written (by decide) hsz
  have hf := hnf (fun _ h => WriteResult.noConfusion h)
  obtain ⟨_, _, h3, h4, _, _⟩ := hsok hf
  have ht : tail_of [65] = [65] := by decide
  rw [ht] at h3 h4
  exact ⟨_, ha, rfl, by decide, s, hs, hf, h4, h3⟩

/-! ## C8 : no complete message is left behind -/

theorem handle_no_crlf (fd : Nat) : ∀ (cs : List (List Nat)) (st : State)
    (w : Nat → WriteResult),
    SlotOK (st.client_buffers (fd % NUM_SLOTS)) (st.buffer_lens (fd % NUM_SLOTS)) →
    (∀ c ∈ cs, 0 < c.length ∧ c.length ≤ READ_MAX) →
    ∃ r, handle_client_data st fd (cs.map ReadResult.bytes) w = some r ∧
      (r.ret = 0 → (cs ≠ [] ∨ findCRLF (st.content (fd % NUM_SLOTS)) = none) →
        findCRLF (r.st.content (fd % NUM_SLOTS)) = none) := by
  intro cs
  induction cs with
  | nil =>
    intro st w _ _
    refine ⟨_, rfl, fun _ h => ?_⟩
    rcases h with h | h
    · exact absurd rfl h
    · exact h
  | cons c cs ih =>
    intro st w hok hcs
    obtain ⟨hc1, hc2⟩ := hcs c (List.mem_cons_self _ _)
    have hc : c ≠ [] := List.length_pos.mp hc1
    obtain ⟨s, hs, hst, hclean⟩ := on_data_total _ _ c w hok hc2
    have hbuf := put_buffer st (fd % NUM_SLOTS) s.mem s.len
    have hcont := put_content st (fd % NUM_SLOTS) s.mem s.len
    rw [List.map_cons, handle_cons_bytes st fd c _ w hc, hs]
    by_cases hf : s.failed = true
    · simp only [hf, if_true]
      refine ⟨_, rfl, fun h => ?_⟩
      exact absurd h (show ¬ ((-1 : Int) = 0) by decide)
    · simp only [hf, Bool.false_eq_true, if_false]
      have hff : s.failed = false := by simpa using hf
      obtain ⟨r1, hr1, hr1ok⟩ := ih (st.put (fd % NUM_SLOTS) s.mem s.len)
        (fun k => w (k + s.writes))
        (by rw [hbuf.1, hbuf.2]; exact ⟨hst.1, hst.2.1, Or.inr hst.2.2⟩)
        (fun a ha => hcs a (List.mem_cons_of_mem _ ha))
      rw [hr1]
      refine ⟨_, rfl, fun hret _ => ?_⟩
      apply hr1ok hret
      right
      rw [hcont]
      exact (hclean hff).1

/-- C8. From a reachable slot, chunks of 1 to 1023 bytes are read, one at least, and the handler
returns `0` (no `write` returned `-1`; each chunk was appended or dropped by the guard of line
145): every access stayed inside the slot, and the bytes retained, the first `buffer_lens`
bytes of the slot, hold no CR LF. -/
theorem no_message_left_behind (st : State) (fd : Nat) (cs : List (List Nat))
    (w : Nat → WriteResult)
    (hok : SlotOK (st.client_buffers (fd % NUM_SLOTS)) (st.buffer_lens (fd % NUM_SLOTS)))
    (hcs : ∀ c ∈ cs, 0 < c.length ∧ c.length ≤ READ_MAX) (hne : cs ≠ []) :
    ∃ r, handle_client_data st fd (cs.map ReadResult.bytes) w = some r ∧
      (r.ret = 0 → findCRLF (r.st.content (fd % NUM_SLOTS)) = none) := by
  obtain ⟨r, hr, h⟩ := handle_no_crlf fd cs st w hok hcs
  exact ⟨r, hr, fun hret => h hret (Or.inl hne)⟩

/-- C8, an instance: "A\r\nB\r" then "\nC" read from the zero-initialised arrays. -/
theorem no_message_left_behind_witness :
    ((∀ c ∈ [[65, 13, 10, 66, 13], [10, 67]], 0 < c.length ∧ c.length ≤ READ_MAX) ∧
      [[65, 13, 10, 66, 13], [10, 67]] ≠ []) ∧
    ∃ r, handle_client_data State.init 5
        ([[65, 13, 10, 66, 13], [10, 67]].map ReadResult.bytes) all_written = some r ∧
      (r.ret = 0 → findCRLF (r.st.content (5 % NUM_SLOTS)) = none) :=
  ⟨⟨by decide, by decide⟩,
    no_message_left_behind State.init 5 [[65, 13, 10, 66, 13], [10, 67]] all_written
      (init_slot_ok _) (by decide) (by decide)⟩

/-! ## C9 : the bounds of the slots -/

theorem client_event_terminated (sv : Server) (fd : Nat) (reads : List ReadResult)
    (w : Nat → WriteResult)
    (hinv : ∀ idx, Terminated (sv.st.client_buffers idx) (sv.st.buffer_lens idx))
    (hrd : ∀ rd ∈ reads, ChunkRead rd) :
    ∃ sv1 r, client_event sv fd reads w = some (sv1, r) ∧
      ∀ idx, Terminated (sv1.st.client_buffers idx) (sv1.st.buffer_lens idx) := by
  obtain ⟨r, hr, hterm⟩ := handle_terminated fd reads sv.st w (hinv _) hrd
  have hall : ∀ idx, Terminated (r.st.client_buffers idx) (r.st.buffer_lens idx) := by
    intro idx
    by_cases hi : idx = fd % NUM_SLOTS
    · rw [hi]; exact hterm
    · obtain ⟨h1, h2⟩ := handle_frame fd reads sv.st w r hr idx hi
      rw [h1, h2]; exact hinv idx
  unfold client_event
  rw [hr]
  by_cases hret : r.ret = -1
  · exact ⟨⟨r.st, sv.open_fds.erase fd⟩, r, by simp only [hret, if_true], hall⟩
  · exact ⟨⟨r.st, sv.open_fds⟩, r, by simp only [hret, if_false], hall⟩

theorem serve_terminated : ∀ (events : List ClientEvent) (sv : Server),
    (∀ idx, Terminated (sv.st.client_buffers idx) (sv.st.buffer_lens idx)) →
    (∀ e ∈ events, ∀ rd ∈ e.2.1, ChunkRead rd) →
    ∃ sv1, serve sv events = some sv1 ∧
      ∀ idx, Terminated (sv1.st.client_buffers idx) (sv1.st.buffer_lens idx) := by
  intro events
  induction events with
  | nil => intro sv hinv _; exact ⟨sv, rfl, hinv⟩
  | cons e es ih =>
    intro sv hinv hev
    obtain ⟨sv1, r, h1, hinv1⟩ :=
      client_event_terminated sv e.1 e.2.1 e.2.2 hinv (hev e (List.mem_cons_self _ _))
    obtain ⟨sv2, h2, hinv2⟩ := ih sv1 hinv1 (fun a ha => hev a (List.mem_cons_of_mem _ ha))
    refine ⟨sv2, ?_, hinv2⟩
    simp only [serve, h1]
    exact h2

/-- Every state the loop of `main` reaches from the zero-initialised arrays, whatever is read
(at most `READ_MAX` bytes a time) and whatever the writes return, has all its slots 2048 bytes
long, with a length below 2048 that is `0` or the index of a NUL. -/
theorem serve_slot_ok : ∀ (events : List ClientEvent) (sv : Server),
    (∀ idx, SlotOK (sv.st.client_buffers idx) (sv.st.buffer_lens idx)) →
    (∀ e ∈ events, ∀ rd ∈ e.2.1, ValidRead rd) →
    ∃ sv1, serve sv events = some sv1 ∧
      ∀ idx, SlotOK (sv1.st.client_buffers idx) (sv1.st.buffer_lens idx) := by
  intro events
  induction events with
  | nil => intro sv hinv _; exact ⟨sv, rfl, hinv⟩
  | cons e es ih =>
    intro sv hinv hev
    obtain ⟨r, hr, _, hok⟩ :=
      handle_total e.1 e.2.1 sv.st e.2.2 (hinv _) (hev e (List.mem_cons_self _ _))
    have hall : ∀ idx, SlotOK (r.st.client_buffers idx) (r.st.buffer_lens idx) := by
      intro idx
      by_cases hi : idx = e.1 % NUM_SLOTS
      · rw [hi]; exact hok
      · obtain ⟨h1, h2⟩ := handle_frame e.1 e.2.1 sv.st e.2.2 r hr idx hi
        rw [h1, h2]; exact hinv idx
    have hes : ∀ a ∈ es, ∀ rd ∈ a.2.1, ValidRead rd :=
      fun a ha => hev a (List.mem_cons_of_mem _ ha)
    by_cases hret : r.ret = -1
    · obtain ⟨sv2, h2, hinv2⟩ := ih ⟨r.st, sv.open_fds.erase e.1⟩ hall hes
      refine ⟨sv2, ?_, hinv2⟩
      simp only [serve, client_event, hr, hret, if_true]
      exact h2
    · obtain ⟨sv2, h2, hinv2⟩ := ih ⟨r.st, sv.open_fds⟩ hall hes
      refine ⟨sv2, ?_, hinv2⟩
      simp only [serve, client_event, hr, hret, if_false]
      exact h2

/-- C9. From the zero-initialised arrays, after any sequence of client events on any
descriptors whose `read` results are chunks of 1 to 1023 bytes (or would-block, or an error),
whatever the `write` calls return: no access left a slot (the embedding returns `some`), and
every slot is 2048 bytes long with `buffer_lens` at most 2047 and a NUL at index
`buffer_lens`. -/
theorem buffer_bounds (fds : List Nat) (events : List ClientEvent)
    (hev : ∀ e ∈ events, ∀ rd ∈ e.2.1, ChunkRead rd) :
    ∃ sv, serve ⟨State.init, fds⟩ events = some sv ∧
      ∀ idx, (sv.st.client_buffers idx).length = SLOT_SIZE ∧
        sv.st.buffer_lens idx ≤ SLOT_SIZE - 1 ∧
        (sv.st.client_buffers idx)[sv.st.buffer_lens idx]? = some 0 := by
  obtain ⟨sv, hsv, hinv⟩ := serve_terminated events ⟨State.init, fds⟩
    (fun idx => init_terminated idx) hev
  refine ⟨sv, hsv, fun idx => ?_⟩
  obtain ⟨h1, h2, h3⟩ := hinv idx
  exact ⟨h1, Nat.le_sub_one_of_lt h2, h3⟩

/-- C9, an instance: two descriptors, one answered and one whose `write` fails. -/
theorem buffer_bounds_witness :
    (∀ e ∈ [((5, [ReadResult.bytes [65, 13, 10, 66], ReadResult.eagain], all_written) :
          ClientEvent),
        (1029, [ReadResult.bytes [13, 10, 0, 67]], fun _ => WriteResult.fail)],
      ∀ rd ∈ e.2.1, ChunkRead rd) ∧
    ∃ sv, serve ⟨State.init, [5, 1029]⟩
        [((5, [ReadResult.bytes [65, 13, 10, 66], ReadResult.eagain], all_written) :
          ClientEvent),
        (1029, [ReadResult.bytes [13, 10, 0, 67]], fun _ => WriteResult.fail)] = some sv ∧
      ∀ idx, (sv.st.client_buffers idx).length = SLOT_SIZE ∧
        sv.st.buffer_lens idx ≤ SLOT_SIZE - 1 ∧
        (sv.st.client_buffers idx)[sv.st.buffer_lens idx]? = some 0 :=
  ⟨by decide, buffer_bounds [5, 1029] _ (by decide)⟩

/-! ## C10 : a full buffer -/

/-- Lines 143-175 when the chunk fits and the retained bytes followed by the chunk hold no NUL
and no CR LF: the chunk is appended and nothing is written, whatever `write` would return. -/
theorem on_data_quiet (mem : List Nat) (len : Nat) (data : List Nat) (w : Nat → WriteResult)
    (hlen : mem.length = SLOT_SIZE) (h0 : 0 ∉ mem.take len ++ data)
    (hcr : findCRLF (mem.take len ++ data) = none)
    (hfit : len + data.length < SLOT_SIZE) :
    on_data mem len data w
      = some ⟨mem.take len ++ data ++ 0 :: mem.drop (len + data.length + 1),
          len + data.length, [], [], 0, false⟩ := by
  have hl : (mem.take len ++ data).length = len + data.length := by simp; omega
  have h := extract_pass_idle (mem.take len ++ data) (mem.drop (len + data.length + 1))
    (len + data.length) w h0 hcr
  rw [hl] at h
  unfold on_data
  rw [append_chunk_fits mem len data hlen hfit]
  exact h

theorem handle_quiet (fd : Nat) : ∀ (cs : List (List Nat)) (st : State)
    (w : Nat → WriteResult),
    (st.client_buffers (fd % NUM_SLOTS)).length = SLOT_SIZE →
    st.buffer_lens (fd % NUM_SLOTS) ≤ SLOT_SIZE →
    (∀ c ∈ cs, c ≠ []) →
    0 ∉ st.content (fd % NUM_SLOTS) ++ cs.flatten →
    findCRLF (st.content (fd % NUM_SLOTS) ++ cs.flatten) = none →
    st.buffer_lens (fd % NUM_SLOTS) + cs.flatten.length < SLOT_SIZE →
    ∃ st1, handle_client_data st fd (cs.map ReadResult.bytes) w = some ⟨0, st1, [], []⟩ ∧
      st1.content (fd % NUM_SLOTS) = st.content (fd % NUM_SLOTS) ++ cs.flatten ∧
      st1.buffer_lens (fd % NUM_SLOTS) = st.buffer_lens (fd % NUM_SLOTS) + cs.flatten.length ∧
      (cs ≠ [] → (st1.client_buffers (fd % NUM_SLOTS))[st1.buffer_lens (fd % NUM_SLOTS)]?
        = some 0) := by
  intro cs
  induction cs with
  | nil =>
    intro st w _ _ _ _ _ _
    exact ⟨st, rfl, by simp, by simp, fun h => absurd rfl h⟩
  | cons c cs ih =>
    intro st w hlen hle hne h0 hcr hfit
    have hc : c ≠ [] := hne c (List.mem_cons_self _ _)
    simp only [List.flatten_cons, List.length_append] at hfit
    have hfl : st.content (fd % NUM_SLOTS) ++ (c :: cs).flatten
        = (st.content (fd % NUM_SLOTS) ++ c) ++ cs.flatten := by simp
    rw [hfl] at h0 hcr
    have h0c : 0 ∉ st.content (fd % NUM_SLOTS) ++ c := fun h => h0 (List.mem_append_left _ h)
    have hq := on_data_quiet (st.client_buffers (fd % NUM_SLOTS))
      (st.buffer_lens (fd % NUM_SLOTS)) c w hlen h0c (findCRLF_of_append _ _ hcr) (by omega)
    have hss : SLOT_SIZE = 2048 := rfl
    have hl : ((st.client_buffers (fd % NUM_SLOTS)).take (st.buffer_lens (fd % NUM_SLOTS))
        ++ c).length = st.buffer_lens (fd % NUM_SLOTS) + c.length := by simp; omega
    obtain ⟨mem1, hmem1⟩ : ∃ m, m = (st.client_buffers (fd % NUM_SLOTS)).take
        (st.buffer_lens (fd % NUM_SLOTS)) ++ c
        ++ 0 :: (st.client_buffers (fd % NUM_SLOTS)).drop
          (st.buffer_lens (fd % NUM_SLOTS) + c.length + 1) := ⟨_, rfl⟩
    rw [← hmem1] at hq
    have hbuf := put_buffer st (fd % NUM_SLOTS) mem1 (st.buffer_lens (fd % NUM_SLOTS) + c.length)
    have hcont := put_content st (fd % NUM_SLOTS) mem1
      (st.buffer_lens (fd % NUM_SLOTS) + c.length)
    have hm1len : mem1.length = SLOT_SIZE := by rw [hmem1]; simp; omega
    have hm1take : mem1.take (st.buffer_lens (fd % NUM_SLOTS) + c.length)
        = st.content (fd % NUM_SLOTS) ++ c := by
      rw [hmem1]
      exact List.take_left' hl
    have hget : mem1[st.buffer_lens (fd % NUM_SLOTS) + c.length]? = some 0 := by
      rw [hmem1, ← hl, List.getElem?_append_right (Nat.le_refl _)]
      simp
    rw [hm1take] at hcont
    obtain ⟨st1, h1, h1c, h1l, h1g⟩ := ih _ (fun k => w (k + 0))
      (by rw [hbuf.1]; exact hm1len) (by rw [hbuf.2]; omega)
      (fun a ha => hne a (List.mem_cons_of_mem _ ha))
      (by rw [hcont]; exact h0) (by rw [hcont]; exact hcr) (by rw [hbuf.2]; omega)
    refine ⟨st1, ?_, ?_, ?_, ?_⟩
    · rw [List.map_cons, handle_cons_bytes st fd c _ w hc, hq]
      simp only [Bool.false_eq_true, if_false, h1, List.nil_append]
    · rw [h1c, hcont, hfl]
    · rw [h1l, hbuf.2]
      simp only [List.flatten_cons, List.length_append]
      omega
    · intro _
      by_cases hcs : cs = []
      · subst hcs
        simp only [List.map_nil, handle_client_data, Option.some.injEq, Result.mk.injEq,
          true_and, and_true] at h1
        rw [← h1, hbuf.1, hbuf.2]
        exact hget
      · exact h1g hcs

/-- C10. Into an empty slot arrive 2047 bytes that hold no NUL and no CR LF, as chunks of 1023,
1023 and 1 bytes: the handler returns `0`, writes nothing and the slot holds the 2047 bytes.
From then on, for every sequence of chunks that are not empty, whatever they hold (CR LF
included) and whatever `write` would return, the handler drops each chunk in full, leaves the
arrays as they are, writes nothing and returns `0`: the connection stays open and never gets
another reply. -/
theorem full_buffer_wedges (st : State) (fd : Nat) (c1 c2 c3 : List Nat)
    (w : Nat → WriteResult)
    (hlen : (st.client_buffers (fd % NUM_SLOTS)).length = SLOT_SIZE)
    (hempty : st.buffer_lens (fd % NUM_SLOTS) = 0)
    (h1 : c1.length = 1023) (h2 : c2.length = 1023) (h3 : c3.length = 1)
    (hnul : 0 ∉ c1 ++ c2 ++ c3) (hcr : findCRLF (c1 ++ c2 ++ c3) = none) :
    ∃ r1, handle_client_data st fd
        [ReadResult.bytes c1, ReadResult.bytes c2, ReadResult.bytes c3] w = some r1 ∧
      r1.ret = 0 ∧ r1.sent = [] ∧ r1.st.content (fd % NUM_SLOTS) = c1 ++ c2 ++ c3 ∧
      r1.st.buffer_lens (fd % NUM_SLOTS) = 2047 ∧
      ∀ (cs : List (List Nat)) (w1 : Nat → WriteResult), (∀ c ∈ cs, c ≠ []) →
        handle_client_data r1.st fd (cs.map ReadResult.bytes) w1
          = some ⟨0, r1.st, [], []⟩ := by
  have hc := content_of_empty st _ hempty
  have hfl : [c1, c2, c3].flatten = c1 ++ c2 ++ c3 := by simp
  have hne : ∀ c ∈ [c1, c2, c3], c ≠ [] := by
    intro c hcin
    simp only [List.mem_cons, List.mem_singleton, List.not_mem_nil, or_false] at hcin
    apply List.length_pos.mp
    rcases hcin with h | h | h <;> rw [h] <;> omega
  have hss : SLOT_SIZE = 2048 := rfl
  obtain ⟨st1, hrun, hcont, hl, hget⟩ := handle_quiet fd [c1, c2, c3] st w hlen
    (by rw [hempty]; omega) hne (by rw [hc, hfl]; exact hnul) (by rw [hc, hfl]; exact hcr)
    (by rw [hempty, hfl]; simp only [List.length_append]; omega)
  rw [hc, hfl, List.nil_append] at hcont
  have hl1 : st1.buffer_lens (fd % NUM_SLOTS) = 2047 := by
    rw [hl, hempty, hfl]; simp only [List.length_append]; omega
  refine ⟨_, hrun, rfl, rfl, hcont, hl1, ?_⟩
  exact handle_wedged fd st1 (hget (List.cons_ne_nil _ _)) (by rw [hcont]; exact hnul)
    (by rw [hcont]; exact hcr) (by rw [hl1]; rfl)

theorem filler_append :
    List.replicate 1023 65 ++ List.replicate 1023 65 ++ [65] = List.replicate 2047 65 := by
  have h1 : ([65] : List Nat) = List.replicate 1 65 := rfl
  rw [h1, List.append_replicate_replicate, List.append_replicate_replicate]

/-- C10, an instance: 2047 bytes "A" from the zero-initialised arrays. -/
theorem full_buffer_wedges_witness :
    ((List.replicate 1023 65).length = 1023 ∧
      0 ∉ List.replicate 1023 65 ++ List.replicate 1023 65 ++ [65] ∧
      findCRLF (List.replicate 1023 65 ++ List.replicate 1023 65 ++ [65]) = none) ∧
    ∃ r1, handle_client_data State.init 5
        [ReadResult.bytes (List.replicate 1023 65), ReadResult.bytes (List.replicate 1023 65),
          ReadResult.bytes [65]] all_written = some r1 ∧
      r1.ret = 0 ∧ r1.sent = [] ∧
      r1.st.content (5 % NUM_SLOTS)
        = List.replicate 1023 65 ++ List.replicate 1023 65 ++ [65] ∧
      r1.st.buffer_lens (5 % NUM_SLOTS) = 2047 ∧
      ∀ (cs : List (List Nat)) (w1 : Nat → WriteResult), (∀ c ∈ cs, c ≠ []) →
        handle_client_data r1.st 5 (cs.map ReadResult.bytes) w1
          = some ⟨0, r1.st, [], []⟩ :=
  ⟨⟨List.length_replicate _ _, by rw [filler_append]; exact replicate_nul_free _,
      by rw [filler_append]; exact findCRLF_replicate _⟩,
    full_buffer_wedges State.init 5 (List.replicate 1023 65) (List.replicate 1023 65) [65]
      all_written (init_length _) rfl (List.length_replicate _ _) (List.length_replicate _ _)
      rfl (by rw [filler_append]; exact replicate_nul_free _)
      (by rw [filler_append]; exact findCRLF_replicate _)⟩

end EpollServer
